import Mathlib

/-!
# Verification of `second_order_centrality.py`

A shallow embedding of the repository's single source file,
`second_order_centrality.py`, which computes the second order centrality
(SOC) of every node of a connected undirected graph analytically.

Modelling conventions:

* A networkx graph is a list of node labels (in insertion order), a list of
  weighted edges, and a directedness flag (`NXGraph`).  A multigraph is an
  edge list with repeated endpoint pairs.
* `nx.to_numpy_matrix` becomes `Amat`: entry `(i, l)` sums the weights of
  all edges joining node `i` and node `l` (parallel edges are summed).
* Machine floats are modelled by exact rationals `ℚ` throughout the linear
  algebra; the final `np.sqrt` is modelled by `npSqrt : ℚ → Option ℝ`,
  where `none` models the NaN that numpy's sqrt produces on a negative
  argument.  Rational division by zero yields `0` in Lean where numpy
  would produce NaN; the only place this can arise (the row of an isolated
  node, possible only for `n = 1`) is immediately overwritten by the
  column-zeroing in `_Qj`, so the two semantics agree on every code path.
* `np.linalg.solve A b` becomes `npSolve`: the unique solution
  `A⁻¹ ⬝ b = det A⁻¹ • (adjugate A ⬝ b)` when `A` is nonsingular, `none`
  (modelling the raised `LinAlgError`) otherwise.
* The source line `M[:, i] = np.linalg.solve(..., np.ones([n, 1]))[0]`
  indexes **row 0** of the `(n, 1)` solution array, and numpy assignment
  broadcasts that single scalar over the whole column of `M`.  The
  embedding reproduces this: column `i` of `M` (and of `H`) is the
  constant vector holding the first component of the solution vector.
* `raise` becomes `Except.error` carrying the message of the exception the
  source raises; the decorator `@nx.not_implemented_for('directed')` is the
  first check, before the function body runs.
-/

/-- A networkx-style graph: node labels in insertion order, a list of
weighted edges (a multigraph when endpoint pairs repeat), and a
directedness flag. -/
structure NXGraph where
  nodes : List ℕ
  edges : List (ℕ × ℕ × ℚ)
  directed : Bool

/-- `n = len(G)`: the number of nodes. -/
def nN (G : NXGraph) : ℕ := G.nodes.length

/-- `nx.to_numpy_matrix(G)`: the weighted adjacency matrix in node order.
Entry `(i, l)` is the total weight of the edges joining node `i` and node
`l` (an undirected edge is stored once but matches both orientations;
parallel edges of a multigraph are summed). -/
def Amat (G : NXGraph) : Matrix (Fin (nN G)) (Fin (nN G)) ℚ :=
  fun i l =>
    (G.edges.map fun e =>
      if (e.1 = G.nodes.get i ∧ e.2.1 = G.nodes.get l) ∨
         (e.1 = G.nodes.get l ∧ e.2.1 = G.nodes.get i)
      then e.2.2 else 0).sum

/-- `P.sum(axis=1)`: the row sums of the adjacency matrix. -/
def rowSum (G : NXGraph) (i : Fin (nN G)) : ℚ := ∑ l, Amat G i l

/-- `P = P / P.sum(axis=1)`: the transition probability matrix, each
adjacency row divided by its row sum.  (For a zero row sum, numpy would
produce a NaN row; in `ℚ` the entries become `0`.  A zero row sum only
occurs for `n = 1`, where the sole column is zeroed by `Qmat` before any
further use, so the embedding agrees with the code on every code path.) -/
def Pmat (G : NXGraph) : Matrix (Fin (nN G)) (Fin (nN G)) ℚ :=
  fun i l => Amat G i l / rowSum G i

/-- `_Qj(P, j)`: a fresh copy of `P` with column `j` zeroed. -/
def Qmat (G : NXGraph) (j : Fin (nN G)) : Matrix (Fin (nN G)) (Fin (nN G)) ℚ :=
  fun i l => if l = j then 0 else Pmat G i l

/-- Adjacency test on node indices: is there an edge joining node `i` and
node `l`?  (This is what `nx.is_connected` traverses; edge weights are
irrelevant to it.) -/
def adjB (G : NXGraph) (i l : Fin (nN G)) : Bool :=
  G.edges.any fun e =>
    decide ((e.1 = G.nodes.get i ∧ e.2.1 = G.nodes.get l) ∨
            (e.1 = G.nodes.get l ∧ e.2.1 = G.nodes.get i))

/-- One round of breadth-first expansion of a set of node indices by the
adjacency relation. -/
def stepSet (G : NXGraph) (s : Finset (Fin (nN G))) : Finset (Fin (nN G)) :=
  s ∪ Finset.univ.filter fun l => ∃ a ∈ s, adjB G a l = true

/-- `nx.is_connected(G)`: every node is reachable from node `0`;
computed by `nN G` rounds of breadth-first expansion, which is enough to
reach any reachable node. -/
def is_connected (G : NXGraph) : Bool :=
  if h : 0 < nN G then
    decide ((stepSet G)^[nN G] {⟨0, h⟩} = Finset.univ)
  else false

/-- `np.linalg.solve(A, b)`: the exact solution of `A x = b` when `A` is
nonsingular, else `none` (modelling the raised `LinAlgError`). -/
def npSolve {n : ℕ} (A : Matrix (Fin n) (Fin n) ℚ) (b : Fin n → ℚ) :
    Option (Fin n → ℚ) :=
  if A.det = 0 then none else some (A.det⁻¹ • (A.adjugate.mulVec b))

/-- The first linear solve of loop iteration `j` (source line 105):
`np.linalg.solve(I - _Qj(P, j), ones)`, eq. (3). -/
def mSol (G : NXGraph) (j : Fin (nN G)) : Option (Fin (nN G) → ℚ) :=
  npSolve (1 - Qmat G j) (fun _ => 1)

/-- The scalar written into every entry of column `j` of `M`: the source
takes row `[0]` of the `(n, 1)` solution and numpy broadcasts it over the
column.  Junk value `0` when the solve failed (the code would have raised
before using it). -/
def mBroadcast (G : NXGraph) (j : Fin (nN G)) : ℚ :=
  ((mSol G j).map fun m => m ⟨0, j.pos⟩).getD 0

/-- The second linear solve of loop iteration `j` (source line 108):
`np.linalg.solve(I - _Qj(P, j), (I + _Qj(P, j)) * reshape(M[:, j]))`.
Its right-hand side uses column `j` of `M` as just stored, i.e. the
constant vector `mBroadcast G j`. -/
def hSol (G : NXGraph) (j : Fin (nN G)) : Option (Fin (nN G) → ℚ) :=
  (mSol G j).bind fun _ =>
    npSolve (1 - Qmat G j) ((1 + Qmat G j).mulVec fun _ => mBroadcast G j)

/-- The scalar written into every entry of column `j` of `H`. -/
def hBroadcast (G : NXGraph) (j : Fin (nN G)) : ℚ :=
  ((hSol G j).map fun h => h ⟨0, j.pos⟩).getD 0

/-- The working matrix `M` after the loop: every entry of column `j` holds
the broadcast scalar of iteration `j`. -/
def Mmat (G : NXGraph) : Matrix (Fin (nN G)) (Fin (nN G)) ℚ :=
  fun _ j => mBroadcast G j

/-- The working matrix `H` after the loop. -/
def Hmat (G : NXGraph) : Matrix (Fin (nN G)) (Fin (nN G)) ℚ :=
  fun _ j => hBroadcast G j

/-- The message of the exception raised by `@nx.not_implemented_for('directed')`. -/
def unsupportedMsg : String := "not implemented for directed type"

/-- The message of the exception raised for a graph with zero nodes. -/
def emptyMsg : String := "Empty graph."

/-- The message of the exception raised for a disconnected graph. -/
def disconnectedMsg : String := "Non connected graph."

/-- The message of numpy's `LinAlgError` for a singular system. -/
def singularMsg : String := "Singular matrix"

/-- The computable core of `second_order_centrality`: all checks and both
families of linear solves, returning per key `k` the radicand
`H[0, k] - M[0, k] ** 2` (the argument of the final `np.sqrt`).  The keys
are produced by `enumerate`, i.e. they are the positions `0, ..., n - 1`,
not the node labels. -/
def socCore (G : NXGraph) : Except String (List (ℕ × ℚ)) :=
  if G.directed = true then .error unsupportedMsg
  else if h : nN G = 0 then .error emptyMsg
  else if is_connected G = true then
    if ∀ c : Fin (nN G), (mSol G c).isSome ∧ (hSol G c).isSome then
      .ok ((List.finRange (nN G)).map fun k =>
        (k.val,
          Hmat G ⟨0, Nat.pos_of_ne_zero h⟩ k -
            (Mmat G ⟨0, Nat.pos_of_ne_zero h⟩ k) ^ 2))
    else .error singularMsg
  else .error disconnectedMsg

/-- `np.sqrt` on a scalar: `none` models the NaN produced on a negative
argument. -/
noncomputable def npSqrt (x : ℚ) : Option ℝ :=
  if x < 0 then none else some (Real.sqrt (x : ℝ))

/-- `second_order_centrality(G)`: the embedded top-level function.  The
result models the returned dict as an association list in key order
`0, ..., n - 1`; a value `none` models a NaN float. -/
noncomputable def second_order_centrality (G : NXGraph) :
    Except String (List (ℕ × Option ℝ)) :=
  (socCore G).map (List.map fun p => (p.1, npSqrt p.2))

/-- A valid input in the sense of the specification's data model: an
undirected, non-empty, connected graph whose edge weights are strictly
positive (the spec requires non-negative weights and strictly positive
adjacency row sums; strict positivity of each weight gives both). -/
def ValidInput (G : NXGraph) : Prop :=
  G.directed = false ∧ 0 < nN G ∧ is_connected G = true ∧
    ∀ e ∈ G.edges, 0 < e.2.2

instance (G : NXGraph) : Decidable (ValidInput G) := by
  unfold ValidInput; infer_instance

/- Concrete graphs used as test inputs. -/

/-- The path (= complete) graph on two nodes labelled `0, 1`. -/
def path2 : NXGraph := ⟨[0, 1], [(0, 1, 1)], false⟩

/-- A two-node graph whose labels `5, 9` are not `0, ..., n - 1`. -/
def g59 : NXGraph := ⟨[5, 9], [(5, 9, 1)], false⟩

/-- The single-node graph. -/
def single1 : NXGraph := ⟨[0], [], false⟩

/-- The cycle (= complete) graph on three nodes: a vertex-transitive graph. -/
def cycle3 : NXGraph := ⟨[0, 1, 2], [(0, 1, 1), (1, 2, 1), (2, 0, 1)], false⟩

/-- A connected multigraph: two parallel edges joining its two nodes. -/
def multi2 : NXGraph := ⟨[0, 1], [(0, 1, 1), (0, 1, 1)], false⟩

/-- A directed graph with zero nodes. -/
def emptyDirected : NXGraph := ⟨[], [], true⟩

/-- A directed two-node graph. -/
def directed2 : NXGraph := ⟨[0, 1], [(0, 1, 1)], true⟩

/-- An undirected graph with zero nodes. -/
def empty0 : NXGraph := ⟨[], [], false⟩

/-- A disconnected undirected graph: two nodes, no edge. -/
def disc2 : NXGraph := ⟨[0, 1], [], false⟩

/-- `nx.star_graph k`: hub `0` joined to leaves `1, ..., k`. -/
def starGraph (k : ℕ) : NXGraph :=
  ⟨List.range (k + 1), (List.range k).map fun t => (0, t + 1, 1), false⟩

/-- The complete graph on `n` nodes `0, ..., n - 1`. -/
def completeG (n : ℕ) : NXGraph :=
  ⟨List.range n, (List.range n).flatMap fun i => (List.range i).map fun j => (j, i, 1), false⟩

/- ## The per-node loop as a state machine (for the frame property) -/

/-- The state of the Python loop as mutable variables: the transition
matrix `P` and the working matrices `M`, `H`. -/
structure LoopState (n : ℕ) where
  P : Matrix (Fin n) (Fin n) ℚ
  M : Matrix (Fin n) (Fin n) ℚ
  H : Matrix (Fin n) (Fin n) ℚ

/-- One iteration of the loop body, reading the transition matrix from the
current state exactly as the Python body reads the ambient variable `P`:
`_Qj` deep-copies it into a fresh matrix and zeroes column `j`, both
solves run against that fresh matrix, and the broadcast scalars are
written into column `j` of `M` and `H`.  The `P` component is returned as
the body leaves it. -/
def loopIter {n : ℕ} (s : LoopState n) (j : Fin n) : LoopState n :=
  let Qj : Matrix (Fin n) (Fin n) ℚ := fun i l => if l = j then 0 else s.P i l
  let mc : ℚ := ((npSolve (1 - Qj) fun _ => 1).map fun m => m ⟨0, j.pos⟩).getD 0
  let hc : ℚ :=
    ((npSolve (1 - Qj) ((1 + Qj).mulVec fun _ => mc)).map fun h => h ⟨0, j.pos⟩).getD 0
  ⟨s.P,
   fun r c => if c = j then mc else s.M r c,
   fun r c => if c = j then hc else s.H r c⟩

/-- The whole loop `for i in range(n)`, started from the freshly built
transition matrix and `np.empty` working matrices (modelled as zero
matrices; every entry is overwritten before being read). -/
def runLoop (G : NXGraph) : LoopState (nN G) :=
  (List.finRange (nN G)).foldl loopIter ⟨Pmat G, 0, 0⟩

/- ## Generic helper lemmas -/

/-- A sum of non-negative mapped values is positive exactly when some list
element maps to a positive value. -/
lemma list_map_sum_pos_iff {α : Type} (L : List α) (f : α → ℚ)
    (hf : ∀ a ∈ L, 0 ≤ f a) :
    0 < (L.map f).sum ↔ ∃ a ∈ L, 0 < f a := by
  induction L with
  | nil => simp
  | cons a L ih =>
    have ha : 0 ≤ f a := hf a (List.mem_cons_self a L)
    have hL : ∀ b ∈ L, 0 ≤ f b := fun b hb => hf b (List.mem_cons_of_mem a hb)
    have hsum : 0 ≤ (L.map f).sum :=
      List.sum_nonneg (by intro x hx; obtain ⟨b, hb, rfl⟩ := List.mem_map.mp hx; exact hL b hb)
    simp only [List.map_cons, List.sum_cons, List.mem_cons]
    constructor
    · intro hpos
      by_cases h : 0 < f a
      · exact ⟨a, Or.inl rfl, h⟩
      · have : 0 < (L.map f).sum := by
          have : f a = 0 := le_antisymm (not_lt.mp h) ha
          linarith
        obtain ⟨b, hb, hfb⟩ := (ih hL).mp this
        exact ⟨b, Or.inr hb, hfb⟩
    · rintro ⟨b, hb | hb, hfb⟩
      · subst hb; linarith
      · have : 0 < (L.map f).sum := (ih hL).mpr ⟨b, hb, hfb⟩
        linarith

/-- Entry formula for `mulVec`. -/
lemma mulVec_apply {n : ℕ} (A : Matrix (Fin n) (Fin n) ℚ) (v : Fin n → ℚ)
    (i : Fin n) : A.mulVec v i = ∑ l, A i l * v l := rfl

/- ## Soundness and uniqueness of the solver -/

/-- If the kernel of `A` is trivial, `A` has non-zero determinant. -/
lemma det_ne_zero_of_ker {n : ℕ} (A : Matrix (Fin n) (Fin n) ℚ)
    (hker : ∀ v, A.mulVec v = 0 → v = 0) : A.det ≠ 0 := by
  intro hdet
  obtain ⟨v, hv0, hv⟩ := (Matrix.exists_mulVec_eq_zero_iff).mpr hdet
  exact hv0 (hker v hv)

/-- `npSolve` succeeds on a nonsingular matrix, and its output solves the
system. -/
lemma npSolve_sound {n : ℕ} (A : Matrix (Fin n) (Fin n) ℚ) (b : Fin n → ℚ)
    (hdet : A.det ≠ 0) :
    npSolve A b = some (A.det⁻¹ • (A.adjugate.mulVec b)) ∧
      A.mulVec (A.det⁻¹ • (A.adjugate.mulVec b)) = b := by
  constructor
  · unfold npSolve; rw [if_neg hdet]
  · rw [Matrix.mulVec_smul, Matrix.mulVec_mulVec, Matrix.mul_adjugate,
      Matrix.smul_mulVec_assoc, Matrix.one_mulVec, smul_smul,
      inv_mul_cancel₀ hdet, one_smul]

/-- When `A` has trivial kernel and `x` solves `A x = b`, the solver
returns exactly `x`. -/
lemma npSolve_eq {n : ℕ} (A : Matrix (Fin n) (Fin n) ℚ) (b x : Fin n → ℚ)
    (hker : ∀ v, A.mulVec v = 0 → v = 0) (hx : A.mulVec x = b) :
    npSolve A b = some x := by
  have hdet := det_ne_zero_of_ker A hker
  obtain ⟨hsolve, hsol⟩ := npSolve_sound A b hdet
  have : A.det⁻¹ • (A.adjugate.mulVec b) = x := by
    have hdiff : A.mulVec (A.det⁻¹ • (A.adjugate.mulVec b) - x) = 0 := by
      rw [Matrix.mulVec_sub, hsol, hx, sub_self]
    have := hker _ hdiff
    exact sub_eq_zero.mp this
  rw [hsolve, this]

/- ## Basic facts about the embedded matrices -/

/-- With positive edge weights the adjacency matrix is entrywise
non-negative. -/
lemma Amat_nonneg (G : NXGraph) (hw : ∀ e ∈ G.edges, 0 < e.2.2)
    (i l : Fin (nN G)) : 0 ≤ Amat G i l := by
  apply List.sum_nonneg
  intro x hx
  obtain ⟨e, he, rfl⟩ := List.mem_map.mp hx
  by_cases hcond : (e.1 = G.nodes.get i ∧ e.2.1 = G.nodes.get l) ∨
      (e.1 = G.nodes.get l ∧ e.2.1 = G.nodes.get i)
  · rw [if_pos hcond]; exact (hw e he).le
  · rw [if_neg hcond]

/-- The adjacency matrix of an undirected edge list is symmetric. -/
lemma Amat_symm (G : NXGraph) (i l : Fin (nN G)) : Amat G i l = Amat G l i := by
  unfold Amat
  have hfun : (fun (e : ℕ × ℕ × ℚ) =>
        if (e.1 = G.nodes.get i ∧ e.2.1 = G.nodes.get l) ∨
           (e.1 = G.nodes.get l ∧ e.2.1 = G.nodes.get i)
        then e.2.2 else 0) =
      (fun (e : ℕ × ℕ × ℚ) =>
        if (e.1 = G.nodes.get l ∧ e.2.1 = G.nodes.get i) ∨
           (e.1 = G.nodes.get i ∧ e.2.1 = G.nodes.get l)
        then e.2.2 else 0) := by
    funext e
    exact if_congr or_comm rfl rfl
  rw [hfun]

/-- The index-level adjacency test is symmetric. -/
lemma adjB_symm (G : NXGraph) (i l : Fin (nN G)) : adjB G i l = adjB G l i := by
  unfold adjB
  have hfun : (fun (e : ℕ × ℕ × ℚ) =>
        decide ((e.1 = G.nodes.get i ∧ e.2.1 = G.nodes.get l) ∨
                (e.1 = G.nodes.get l ∧ e.2.1 = G.nodes.get i))) =
      (fun (e : ℕ × ℕ × ℚ) =>
        decide ((e.1 = G.nodes.get l ∧ e.2.1 = G.nodes.get i) ∨
                (e.1 = G.nodes.get i ∧ e.2.1 = G.nodes.get l))) := by
    funext e
    exact decide_eq_decide.mpr or_comm
  rw [hfun]

/-- With positive edge weights, an adjacency entry is positive exactly
when the two nodes are joined by an edge. -/
lemma Amat_pos_iff (G : NXGraph) (hw : ∀ e ∈ G.edges, 0 < e.2.2)
    (i l : Fin (nN G)) : 0 < Amat G i l ↔ adjB G i l = true := by
  unfold Amat adjB
  rw [list_map_sum_pos_iff]
  · rw [List.any_eq_true]
    constructor
    · rintro ⟨e, he, hpos⟩
      refine ⟨e, he, ?_⟩
      rw [decide_eq_true_eq]
      by_contra hcond
      rw [if_neg hcond] at hpos
      exact lt_irrefl 0 hpos
    · rintro ⟨e, he, hcond⟩
      rw [decide_eq_true_eq] at hcond
      exact ⟨e, he, by rw [if_pos hcond]; exact hw e he⟩
  · intro e he
    by_cases hcond : (e.1 = G.nodes.get i ∧ e.2.1 = G.nodes.get l) ∨
        (e.1 = G.nodes.get l ∧ e.2.1 = G.nodes.get i)
    · rw [if_pos hcond]; exact (hw e he).le
    · rw [if_neg hcond]

/-- Row sums of the adjacency matrix are non-negative. -/
lemma rowSum_nonneg (G : NXGraph) (hw : ∀ e ∈ G.edges, 0 < e.2.2)
    (i : Fin (nN G)) : 0 ≤ rowSum G i :=
  Finset.sum_nonneg fun l _ => Amat_nonneg G hw i l

/-- The transition matrix is entrywise non-negative. -/
lemma Pmat_nonneg (G : NXGraph) (hw : ∀ e ∈ G.edges, 0 < e.2.2)
    (i l : Fin (nN G)) : 0 ≤ Pmat G i l :=
  div_nonneg (Amat_nonneg G hw i l) (rowSum_nonneg G hw i)

/-- Each row of the transition matrix sums to at most `1` (to exactly `1`
when the adjacency row sum is positive, to `0` when it is zero). -/
lemma Pmat_rowsum_le_one (G : NXGraph) (i : Fin (nN G)) :
    ∑ l, Pmat G i l ≤ 1 := by
  unfold Pmat
  rw [← Finset.sum_div]
  by_cases h : rowSum G i = 0
  · rw [h]; norm_num
  · rw [show ∑ l, Amat G i l = rowSum G i from rfl, div_self h]

/-- When the adjacency row sum is positive, the transition row sums to `1`. -/
lemma Pmat_rowsum_eq_one (G : NXGraph) (i : Fin (nN G))
    (h : rowSum G i ≠ 0) : ∑ l, Pmat G i l = 1 := by
  unfold Pmat
  rw [← Finset.sum_div, show ∑ l, Amat G i l = rowSum G i from rfl, div_self h]

/-- The absorbing variant is entrywise non-negative. -/
lemma Qmat_nonneg (G : NXGraph) (hw : ∀ e ∈ G.edges, 0 < e.2.2)
    (j i l : Fin (nN G)) : 0 ≤ Qmat G j i l := by
  unfold Qmat
  by_cases h : l = j
  · rw [if_pos h]
  · rw [if_neg h]; exact Pmat_nonneg G hw i l

/-- The row sums of the absorbing variant: the transition row sum minus
the zeroed entry. -/
lemma Qmat_rowsum (G : NXGraph) (j i : Fin (nN G)) :
    ∑ l, Qmat G j i l = (∑ l, Pmat G i l) - Pmat G i j := by
  have : ∀ l, Qmat G j i l = Pmat G i l - (if l = j then Pmat G i l else 0) := by
    intro l
    by_cases h : l = j
    · subst h; simp [Qmat]
    · simp [Qmat, h]
  rw [Finset.sum_congr rfl fun l _ => this l, Finset.sum_sub_distrib]
  congr 1
  simp

/-- Each row of the absorbing variant sums to at most `1`. -/
lemma Qmat_rowsum_le_one (G : NXGraph) (hw : ∀ e ∈ G.edges, 0 < e.2.2)
    (j i : Fin (nN G)) : ∑ l, Qmat G j i l ≤ 1 := by
  rw [Qmat_rowsum]
  have h1 := Pmat_rowsum_le_one G i
  have h2 := Pmat_nonneg G hw i j
  linarith

/- ## Connectivity -/

/-- The reflexive-transitive closure of a symmetric relation is
symmetric. -/
lemma rtg_symm {α : Type} {r : α → α → Prop} (hsym : ∀ a b, r a b → r b a)
    {a b : α} (h : Relation.ReflTransGen r a b) : Relation.ReflTransGen r b a := by
  induction h with
  | refl => exact Relation.ReflTransGen.refl
  | tail _ hbc ih =>
    exact Relation.ReflTransGen.trans (Relation.ReflTransGen.single (hsym _ _ hbc)) ih

/-- Everything in an iterate of `stepSet` is reachable from the seed set. -/
lemma stepSet_iterate_reach (G : NXGraph) :
    ∀ (k : ℕ) (s : Finset (Fin (nN G))) (x : Fin (nN G)),
      x ∈ (stepSet G)^[k] s →
      ∃ a ∈ s, Relation.ReflTransGen (fun a b => adjB G a b = true) a x := by
  intro k
  induction k with
  | zero => intro s x hx; exact ⟨x, hx, Relation.ReflTransGen.refl⟩
  | succ k ih =>
    intro s x hx
    rw [Function.iterate_succ_apply'] at hx
    unfold stepSet at hx
    rcases Finset.mem_union.mp hx with hx | hx
    · exact ih s x hx
    · obtain ⟨a, ha, hadj⟩ := (Finset.mem_filter.mp hx).2
      obtain ⟨a₀, ha₀, hrtg⟩ := ih s a ha
      exact ⟨a₀, ha₀, hrtg.tail hadj⟩

/-- If the code's connectivity check succeeds, every pair of node indices
is joined by a path of edges. -/
lemma connected_RTG (G : NXGraph) (hc : is_connected G = true) :
    ∀ i l : Fin (nN G),
      Relation.ReflTransGen (fun a b => adjB G a b = true) i l := by
  unfold is_connected at hc
  by_cases h : 0 < nN G
  · rw [dif_pos h, decide_eq_true_eq] at hc
    have hz : ∀ x : Fin (nN G),
        Relation.ReflTransGen (fun a b => adjB G a b = true) ⟨0, h⟩ x := by
      intro x
      have hx : x ∈ (stepSet G)^[nN G] ({⟨0, h⟩} : Finset (Fin (nN G))) := by
        rw [hc]; exact Finset.mem_univ x
      obtain ⟨a, ha, hrtg⟩ := stepSet_iterate_reach G (nN G) _ x hx
      rwa [Finset.mem_singleton.mp ha] at hrtg
    intro i l
    exact Relation.ReflTransGen.trans
      (rtg_symm (fun a b hab => by rwa [adjB_symm]) (hz i)) (hz l)
  · rw [dif_neg h] at hc
    exact absurd hc (by simp)

/-- In a connected graph on at least two nodes with positive edge
weights, every adjacency row sum is positive. -/
lemma rowSum_pos (G : NXGraph) (hw : ∀ e ∈ G.edges, 0 < e.2.2)
    (hc : is_connected G = true) (h2 : 2 ≤ nN G) (i : Fin (nN G)) :
    0 < rowSum G i := by
  have hne : (⟨0, by omega⟩ : Fin (nN G)) ≠ (⟨1, by omega⟩ : Fin (nN G)) := by
    intro h
    exact absurd (congrArg Fin.val h) (by norm_num)
  have hl : ∃ l : Fin (nN G), l ≠ i := by
    by_cases h0 : i = ⟨0, by omega⟩
    · exact ⟨⟨1, by omega⟩, fun h => hne (h0 ▸ h).symm⟩
    · exact ⟨⟨0, by omega⟩, fun h => h0 (h ▸ rfl)⟩
  obtain ⟨l, hl⟩ := hl
  rcases (connected_RTG G hc i l).cases_head with heq | ⟨b, hib, _⟩
  · exact absurd heq.symm hl
  · have hpos : 0 < Amat G i b := (Amat_pos_iff G hw i b).mpr hib
    have : Amat G i b ≤ rowSum G i :=
      Finset.single_le_sum (fun x _ => Amat_nonneg G hw i x) (Finset.mem_univ b)
    linarith

/- ## The kernel of `I - Qj` is trivial on a valid input -/

/-- Rewriting `(I - Qj) v = 0` as the fixed-point equation
`v i = ∑ l, Q i l * v l`. -/
lemma fixed_point_of_ker (G : NXGraph) (j : Fin (nN G)) (v : Fin (nN G) → ℚ)
    (hv : (1 - Qmat G j).mulVec v = 0) :
    ∀ i, v i = ∑ l, Qmat G j i l * v l := by
  intro i
  have h := congrFun hv i
  rw [Matrix.sub_mulVec] at h
  have h' : (1 : Matrix (Fin (nN G)) (Fin (nN G)) ℚ).mulVec v i -
      (Qmat G j).mulVec v i = 0 := h
  rw [Matrix.one_mulVec] at h'
  rw [mulVec_apply] at h'
  linarith

/-- Maximum principle: on a connected graph with positive edge weights,
`I - Qj` has trivial kernel for every target column `j`. -/
theorem ker_IsubQ (G : NXGraph) (hw : ∀ e ∈ G.edges, 0 < e.2.2)
    (hc : is_connected G = true) (j : Fin (nN G)) :
    ∀ v, (1 - Qmat G j).mulVec v = 0 → v = 0 := by
  intro v hv
  have hvq := fixed_point_of_ker G j v hv
  rcases Nat.lt_or_ge (nN G) 2 with h2 | h2
  · -- `n = 1`: the only column is the zeroed one, so `Q = 0` and `v = 0`.
    funext i
    have hQ : ∀ l, Qmat G j i l = 0 := by
      intro l
      have : l = j := by
        apply Fin.ext
        omega
      rw [Qmat, if_pos this]
    rw [hvq i, Finset.sum_congr rfl fun l _ => by rw [hQ l, zero_mul]]
    simp
  · -- `n ≥ 2`: maximum principle.
    have hrow : ∀ i, 0 < rowSum G i := rowSum_pos G hw hc h2
    have hPsum : ∀ i, ∑ l, Pmat G i l = 1 := fun i =>
      Pmat_rowsum_eq_one G i (hrow i).ne'
    have hne : (Finset.univ : Finset (Fin (nN G))).Nonempty := ⟨j, Finset.mem_univ j⟩
    set c := Finset.univ.sup' hne fun i => |v i| with hc_def
    have hcle : ∀ i, |v i| ≤ c := fun i =>
      Finset.le_sup' (fun i => |v i|) (Finset.mem_univ i)
    obtain ⟨i₀, _, hi₀⟩ := Finset.exists_mem_eq_sup' hne fun i => |v i|
    rcases le_or_lt c 0 with hcneg | hcpos
    · funext i
      have := hcle i
      have := abs_nonneg (v i)
      have : |v i| = 0 := le_antisymm (le_trans (hcle i) hcneg) (abs_nonneg (v i))
      exact abs_eq_zero.mp this
    · -- the set of maximising indices is adjacency-closed and avoids `j`'s column
      have step : ∀ i, |v i| = c →
          Amat G i j = 0 ∧ ∀ l, 0 < Amat G i l → |v l| = c := by
        intro i hvi
        have hQpos : ∀ l, 0 ≤ Qmat G j i l := Qmat_nonneg G hw j i
        have key1 : c ≤ ∑ l, Qmat G j i l * |v l| := by
          calc c = |v i| := hvi.symm
            _ = |∑ l, Qmat G j i l * v l| := by rw [hvq i]
            _ ≤ ∑ l, |Qmat G j i l * v l| := Finset.abs_sum_le_sum_abs _ _
            _ = ∑ l, Qmat G j i l * |v l| := by
                apply Finset.sum_congr rfl
                intro l _
                rw [abs_mul, abs_of_nonneg (hQpos l)]
        have hQsum : ∑ l, Qmat G j i l = 1 - Pmat G i j := by
          rw [Qmat_rowsum, hPsum i]
        have key2 : ∑ l, Qmat G j i l * |v l| ≤ c * (1 - Pmat G i j) := by
          rw [← hQsum, Finset.mul_sum]
          apply Finset.sum_le_sum
          intro l _
          rw [mul_comm c (Qmat G j i l)]
          exact mul_le_mul_of_nonneg_left (hcle l) (hQpos l)
        have hPij : Pmat G i j = 0 := by
          have hP0 : 0 ≤ Pmat G i j := Pmat_nonneg G hw i j
          nlinarith
        have hAij : Amat G i j = 0 := by
          have : Amat G i j / rowSum G i = 0 := hPij
          rcases div_eq_zero_iff.mp this with h | h
          · exact h
          · exact absurd h (hrow i).ne'
        refine ⟨hAij, ?_⟩
        -- every summand of `∑ Q i l * (c - |v l|)` is non-negative and they
        -- sum to at most zero, so each vanishes
        have hterm : ∀ l ∈ Finset.univ, 0 ≤ Qmat G j i l * (c - |v l|) := by
          intro l _
          exact mul_nonneg (hQpos l) (by linarith [hcle l])
        have hTsum : ∑ l, Qmat G j i l * (c - |v l|) = 0 := by
          have hexpand : ∑ l, Qmat G j i l * (c - |v l|) =
              c * (∑ l, Qmat G j i l) - ∑ l, Qmat G j i l * |v l| := by
            rw [Finset.mul_sum, ← Finset.sum_sub_distrib]
            apply Finset.sum_congr rfl
            intro l _
            ring
          have hle : ∑ l, Qmat G j i l * (c - |v l|) ≤ 0 := by
            rw [hexpand, hQsum]
            have hP0 : 0 ≤ Pmat G i j := Pmat_nonneg G hw i j
            nlinarith
          exact le_antisymm hle (Finset.sum_nonneg hterm)
        have hzero := (Finset.sum_eq_zero_iff_of_nonneg hterm).mp hTsum
        intro l hAl
        have hQl : 0 < Qmat G j i l := by
          have hlj : l ≠ j := by
            intro h
            rw [h] at hAl
            exact absurd hAij hAl.ne'
          rw [Qmat, if_neg hlj]
          exact div_pos hAl (hrow i)
        have := hzero l (Finset.mem_univ l)
        have : c - |v l| = 0 := by
          rcases mul_eq_zero.mp this with h | h
          · exact absurd h hQl.ne'
          · exact h
        linarith
      -- propagate the maximum along any path
      have hprop : ∀ b, Relation.ReflTransGen (fun a b => adjB G a b = true) i₀ b →
          |v b| = c := by
        intro b hb
        induction hb with
        | refl => exact hi₀.symm
        | tail _ hadj ih =>
          exact (step _ ih).2 _ ((Amat_pos_iff G hw _ _).mpr hadj)
      have hvj : |v j| = c := hprop j (connected_RTG G hc i₀ j)
      -- `j` has a neighbour `l`; `l` is maximising, so `A l j = 0`,
      -- contradicting symmetry
      have hex : ∃ l, 0 < Amat G j l := by
        by_contra hno
        push_neg at hno
        have : rowSum G j ≤ 0 :=
          Finset.sum_nonpos fun l _ => hno l
        linarith [hrow j]
      obtain ⟨l, hl⟩ := hex
      have hvl : |v l| = c := (step j hvj).2 l hl
      have : Amat G l j = 0 := (step l hvl).1
      rw [Amat_symm G l j] at this
      exact absurd this hl.ne'

/-- Minimum principle: any solution of `(I - Qj) m = 1` is entrywise at
least `1` (needs only non-negativity and substochasticity of `Q`). -/
theorem msol_ge_one (G : NXGraph) (hw : ∀ e ∈ G.edges, 0 < e.2.2)
    (j : Fin (nN G)) (m : Fin (nN G) → ℚ)
    (hm : (1 - Qmat G j).mulVec m = fun _ => 1) : ∀ i, 1 ≤ m i := by
  have hmq : ∀ i, m i = 1 + ∑ l, Qmat G j i l * m l := by
    intro i
    have h := congrFun hm i
    rw [Matrix.sub_mulVec] at h
    have h' : (1 : Matrix (Fin (nN G)) (Fin (nN G)) ℚ).mulVec m i -
        (Qmat G j).mulVec m i = 1 := h
    rw [Matrix.one_mulVec] at h'
    rw [mulVec_apply] at h'
    linarith
  intro i
  have hne : (Finset.univ : Finset (Fin (nN G))).Nonempty := ⟨i, Finset.mem_univ i⟩
  set c := Finset.univ.inf' hne m with hc_def
  have hcge : ∀ l, c ≤ m l := fun l => Finset.inf'_le m (Finset.mem_univ l)
  obtain ⟨i₀, _, hi₀⟩ := Finset.exists_mem_eq_inf' hne m
  have hc0 : 0 ≤ c := by
    by_contra hneg
    push_neg at hneg
    have hsum_ge : ∑ l, Qmat G j i₀ l * m l ≥ c * ∑ l, Qmat G j i₀ l := by
      rw [Finset.mul_sum]
      apply Finset.sum_le_sum
      intro l _
      rw [mul_comm c (Qmat G j i₀ l)]
      exact mul_le_mul_of_nonneg_left (hcge l) (Qmat_nonneg G hw j i₀ l)
    have hQs0 : 0 ≤ ∑ l, Qmat G j i₀ l :=
      Finset.sum_nonneg fun l _ => Qmat_nonneg G hw j i₀ l
    have hQs1 : ∑ l, Qmat G j i₀ l ≤ 1 := Qmat_rowsum_le_one G hw j i₀
    have hcs : c * ∑ l, Qmat G j i₀ l ≥ c := by nlinarith
    have : c ≥ 1 + c := by
      calc c = m i₀ := hi₀
        _ = 1 + ∑ l, Qmat G j i₀ l * m l := hmq i₀
        _ ≥ 1 + c * ∑ l, Qmat G j i₀ l := by linarith
        _ ≥ 1 + c := by linarith
    linarith
  have hterm : 0 ≤ ∑ l, Qmat G j i l * m l :=
    Finset.sum_nonneg fun l _ =>
      mul_nonneg (Qmat_nonneg G hw j i l) (le_trans hc0 (hcge l))
  rw [hmq i]
  linarith

/- ## Characterisation of the pipeline on valid inputs -/

/-- On a valid input, the first solve of iteration `j` succeeds, its
output solves `(I - Qj) m = 1`, and the broadcast scalar is the first
component of that solution. -/
lemma valid_mSol (G : NXGraph) (hv : ValidInput G) (j : Fin (nN G)) :
    ∃ m, mSol G j = some m ∧
      (1 - Qmat G j).mulVec m = (fun _ => 1) ∧
      mBroadcast G j = m ⟨0, j.pos⟩ := by
  obtain ⟨_, _, hc, hw⟩ := hv
  have hker := ker_IsubQ G hw hc j
  have hdet := det_ne_zero_of_ker _ hker
  obtain ⟨hsolve, hsol⟩ := npSolve_sound (1 - Qmat G j) (fun _ => 1) hdet
  refine ⟨_, hsolve, hsol, ?_⟩
  rw [mBroadcast, mSol, hsolve]
  rfl

/-- The closed form of the second system's solution: if `(I - Qj) m = 1`
then `l ↦ a * (2 * m l - 1)` solves
`(I - Qj) h = (I + Qj) (constant a)`. -/
lemma hvec_solves (G : NXGraph) (j : Fin (nN G)) (m : Fin (nN G) → ℚ)
    (a : ℚ) (hm : (1 - Qmat G j).mulVec m = fun _ => 1) :
    (1 - Qmat G j).mulVec (fun l => a * (2 * m l - 1)) =
      (1 + Qmat G j).mulVec (fun _ => a) := by
  funext i
  have hrowm : m i - ∑ l, Qmat G j i l * m l = 1 := by
    have h := congrFun hm i
    rw [Matrix.sub_mulVec] at h
    have h' : (1 : Matrix (Fin (nN G)) (Fin (nN G)) ℚ).mulVec m i -
        (Qmat G j).mulVec m i = 1 := h
    rw [Matrix.one_mulVec] at h'
    rw [mulVec_apply] at h'
    linarith
  have hL : (1 - Qmat G j).mulVec (fun l => a * (2 * m l - 1)) i =
      a * (2 * m i - 1) - ∑ l, Qmat G j i l * (a * (2 * m l - 1)) := by
    rw [Matrix.sub_mulVec]
    have h' : ((1 : Matrix (Fin (nN G)) (Fin (nN G)) ℚ).mulVec
          (fun l => a * (2 * m l - 1)) -
        (Qmat G j).mulVec (fun l => a * (2 * m l - 1))) i =
        (1 : Matrix (Fin (nN G)) (Fin (nN G)) ℚ).mulVec
          (fun l => a * (2 * m l - 1)) i -
        (Qmat G j).mulVec (fun l => a * (2 * m l - 1)) i := rfl
    rw [h', Matrix.one_mulVec, mulVec_apply]
  have hR : (1 + Qmat G j).mulVec (fun _ => a) i =
      a + ∑ l, Qmat G j i l * a := by
    rw [Matrix.add_mulVec]
    have h' : ((1 : Matrix (Fin (nN G)) (Fin (nN G)) ℚ).mulVec (fun _ => a) +
        (Qmat G j).mulVec (fun _ => a)) i =
        (1 : Matrix (Fin (nN G)) (Fin (nN G)) ℚ).mulVec (fun _ => a) i +
        (Qmat G j).mulVec (fun _ => a) i := rfl
    rw [h', Matrix.one_mulVec, mulVec_apply]
  rw [hL, hR]
  have e1 : ∑ l, Qmat G j i l * (a * (2 * m l - 1)) =
      2 * a * (∑ l, Qmat G j i l * m l) - a * (∑ l, Qmat G j i l) := by
    rw [Finset.mul_sum, Finset.mul_sum, ← Finset.sum_sub_distrib]
    apply Finset.sum_congr rfl
    intro l _
    ring
  have e2 : ∑ l, Qmat G j i l * a = a * (∑ l, Qmat G j i l) := by
    rw [Finset.mul_sum]
    apply Finset.sum_congr rfl
    intro l _
    ring
  rw [e1, e2]
  have hmi : m i = 1 + ∑ l, Qmat G j i l * m l := by linarith
  rw [hmi]
  ring

/-- On a valid input, the second solve of iteration `j` succeeds and its
output is the closed form `l ↦ mBroadcast * (2 * m l - 1)`. -/
lemma valid_hSol (G : NXGraph) (hv : ValidInput G) (j : Fin (nN G)) :
    ∃ m, mSol G j = some m ∧
      (1 - Qmat G j).mulVec m = (fun _ => 1) ∧
      mBroadcast G j = m ⟨0, j.pos⟩ ∧
      hSol G j = some (fun l => mBroadcast G j * (2 * m l - 1)) := by
  obtain ⟨m, hmeq, hmsolves, hmb⟩ := valid_mSol G hv j
  refine ⟨m, hmeq, hmsolves, hmb, ?_⟩
  rw [hSol, hmeq]
  have hker := ker_IsubQ G hv.2.2.2 hv.2.2.1 j
  exact npSolve_eq _ _ _ hker (hvec_solves G j m (mBroadcast G j) hmsolves)

/-- On a valid input the radicand of column `j` is
`mBroadcast ^ 2 - mBroadcast`, and `mBroadcast ≥ 1`. -/
lemma valid_radicand (G : NXGraph) (hv : ValidInput G) (j : Fin (nN G)) :
    hBroadcast G j - (mBroadcast G j) ^ 2 =
      (mBroadcast G j) ^ 2 - mBroadcast G j ∧
    1 ≤ mBroadcast G j := by
  obtain ⟨m, hmeq, hmsolves, hmb, hheq⟩ := valid_hSol G hv j
  have hge := msol_ge_one G hv.2.2.2 j m hmsolves
  constructor
  · rw [hBroadcast, hheq]
    have : ((some fun l => mBroadcast G j * (2 * m l - 1)).map
        fun h => h ⟨0, j.pos⟩).getD 0 =
        mBroadcast G j * (2 * m ⟨0, j.pos⟩ - 1) := rfl
    rw [this, ← hmb]
    ring
  · rw [hmb]
    exact hge ⟨0, j.pos⟩

/-- On a valid input both solves of every iteration succeed. -/
lemma valid_allSome (G : NXGraph) (hv : ValidInput G) :
    ∀ c : Fin (nN G), (mSol G c).isSome ∧ (hSol G c).isSome := by
  intro c
  obtain ⟨m, hmeq, _, _, hheq⟩ := valid_hSol G hv c
  rw [hmeq, hheq]
  exact ⟨rfl, rfl⟩

/-- On a valid input `socCore` returns the radicand list with keys
`0, ..., n - 1`. -/
theorem socCore_valid (G : NXGraph) (hv : ValidInput G) :
    socCore G = .ok ((List.finRange (nN G)).map fun k =>
      (k.val, hBroadcast G k - (mBroadcast G k) ^ 2)) := by
  rw [socCore, if_neg (by rw [hv.1]; exact Bool.false_ne_true),
    dif_neg hv.2.1.ne', if_pos hv.2.2.1, if_pos (valid_allSome G hv)]
  rfl

/- ## Expansion helpers for small concrete index types -/

lemma sum_fin_one {n : ℕ} (h : n = 1) (f : Fin n → ℚ) :
    ∑ x, f x = f ⟨0, by omega⟩ := by
  subst h
  rw [Fin.sum_univ_one]
  rfl

lemma sum_fin_two {n : ℕ} (h : n = 2) (f : Fin n → ℚ) :
    ∑ x, f x = f ⟨0, by omega⟩ + f ⟨1, by omega⟩ := by
  subst h
  rw [Fin.sum_univ_two]
  rfl

lemma sum_fin_three {n : ℕ} (h : n = 3) (f : Fin n → ℚ) :
    ∑ x, f x = f ⟨0, by omega⟩ + f ⟨1, by omega⟩ + f ⟨2, by omega⟩ := by
  subst h
  rw [Fin.sum_univ_three]
  rfl

lemma finRange_map_one {n : ℕ} {α : Type} (h : n = 1) (f : Fin n → α) :
    (List.finRange n).map f = [f ⟨0, by omega⟩] := by
  subst h
  rfl

lemma finRange_map_two {n : ℕ} {α : Type} (h : n = 2) (f : Fin n → α) :
    (List.finRange n).map f = [f ⟨0, by omega⟩, f ⟨1, by omega⟩] := by
  subst h
  rfl

lemma finRange_map_three {n : ℕ} {α : Type} (h : n = 3) (f : Fin n → α) :
    (List.finRange n).map f = [f ⟨0, by omega⟩, f ⟨1, by omega⟩, f ⟨2, by omega⟩] := by
  subst h
  rfl

/- ## Concrete evaluations: `path2` -/

lemma path2_valid : ValidInput path2 := by decide

lemma path2_Amat : ∀ i l, Amat path2 i l = if (i : ℕ) = (l : ℕ) then 0 else 1 := by
  intro i l
  fin_cases i <;> fin_cases l <;> norm_num [Amat, path2, List.get]

lemma path2_rowSum : ∀ i, rowSum path2 i = 1 := by
  intro i
  rw [rowSum, sum_fin_two (show nN path2 = 2 from rfl), path2_Amat, path2_Amat]
  fin_cases i <;> norm_num

lemma path2_mSol0 : mSol path2 ⟨0, by norm_num [nN, path2]⟩ =
    some (fun l : Fin (nN path2) => if (l : ℕ) = 0 then 2 else 1) := by
  apply npSolve_eq
  · exact ker_IsubQ path2 (by decide) (by decide) _
  · funext i
    rw [mulVec_apply, sum_fin_two (show nN path2 = 2 from rfl)]
    simp only [Matrix.sub_apply, Matrix.one_apply, Qmat, Pmat, path2_rowSum,
      path2_Amat]
    fin_cases i <;> norm_num [Fin.ext_iff]

lemma path2_mSol1 : mSol path2 ⟨1, by norm_num [nN, path2]⟩ =
    some (fun l : Fin (nN path2) => if (l : ℕ) = 0 then 1 else 2) := by
  apply npSolve_eq
  · exact ker_IsubQ path2 (by decide) (by decide) _
  · funext i
    rw [mulVec_apply, sum_fin_two (show nN path2 = 2 from rfl)]
    simp only [Matrix.sub_apply, Matrix.one_apply, Qmat, Pmat, path2_rowSum,
      path2_Amat]
    fin_cases i <;> norm_num [Fin.ext_iff]

lemma path2_mB : ∀ j : Fin (nN path2),
    mBroadcast path2 j = if (j : ℕ) = 0 then 2 else 1 := by
  intro j
  rcases j with ⟨jv, hj⟩
  have hj2 : jv < 2 := hj
  interval_cases jv
  · rw [mBroadcast, path2_mSol0]; rfl
  · rw [mBroadcast, path2_mSol1]; rfl

lemma socCore_path2 : socCore path2 = .ok [(0, 2), (1, 0)] := by
  rw [socCore_valid path2 path2_valid,
    finRange_map_two (show nN path2 = 2 from rfl)]
  have h0 := (valid_radicand path2 path2_valid ⟨0, by norm_num [nN, path2]⟩).1
  have h1 := (valid_radicand path2 path2_valid ⟨1, by norm_num [nN, path2]⟩).1
  simp only [h0, h1]
  simp only [path2_mB]
  norm_num

/- ## Concrete evaluations: `g59` (labels 5 and 9) -/

lemma g59_valid : ValidInput g59 := by decide

lemma g59_Amat : ∀ i l, Amat g59 i l = if (i : ℕ) = (l : ℕ) then 0 else 1 := by
  intro i l
  fin_cases i <;> fin_cases l <;> norm_num [Amat, g59, List.get]

lemma g59_rowSum : ∀ i, rowSum g59 i = 1 := by
  intro i
  rw [rowSum, sum_fin_two (show nN g59 = 2 from rfl), g59_Amat, g59_Amat]
  fin_cases i <;> norm_num

lemma g59_mSol0 : mSol g59 ⟨0, by norm_num [nN, g59]⟩ =
    some (fun l : Fin (nN g59) => if (l : ℕ) = 0 then 2 else 1) := by
  apply npSolve_eq
  · exact ker_IsubQ g59 (by decide) (by decide) _
  · funext i
    rw [mulVec_apply, sum_fin_two (show nN g59 = 2 from rfl)]
    simp only [Matrix.sub_apply, Matrix.one_apply, Qmat, Pmat, g59_rowSum, g59_Amat]
    fin_cases i <;> norm_num [Fin.ext_iff]

lemma g59_mSol1 : mSol g59 ⟨1, by norm_num [nN, g59]⟩ =
    some (fun l : Fin (nN g59) => if (l : ℕ) = 0 then 1 else 2) := by
  apply npSolve_eq
  · exact ker_IsubQ g59 (by decide) (by decide) _
  · funext i
    rw [mulVec_apply, sum_fin_two (show nN g59 = 2 from rfl)]
    simp only [Matrix.sub_apply, Matrix.one_apply, Qmat, Pmat, g59_rowSum, g59_Amat]
    fin_cases i <;> norm_num [Fin.ext_iff]

lemma g59_mB : ∀ j : Fin (nN g59),
    mBroadcast g59 j = if (j : ℕ) = 0 then 2 else 1 := by
  intro j
  rcases j with ⟨jv, hj⟩
  have hj2 : jv < 2 := hj
  interval_cases jv
  · rw [mBroadcast, g59_mSol0]; rfl
  · rw [mBroadcast, g59_mSol1]; rfl

lemma socCore_g59 : socCore g59 = .ok [(0, 2), (1, 0)] := by
  rw [socCore_valid g59 g59_valid, finRange_map_two (show nN g59 = 2 from rfl)]
  have h0 := (valid_radicand g59 g59_valid ⟨0, by norm_num [nN, g59]⟩).1
  have h1 := (valid_radicand g59 g59_valid ⟨1, by norm_num [nN, g59]⟩).1
  simp only [h0, h1]
  simp only [g59_mB]
  norm_num

/- ## Concrete evaluations: `single1` -/

lemma single1_valid : ValidInput single1 := by decide

lemma single1_mSol : mSol single1 ⟨0, by norm_num [nN, single1]⟩ =
    some (fun _ : Fin (nN single1) => 1) := by
  apply npSolve_eq
  · exact ker_IsubQ single1 (by decide) (by decide) _
  · funext i
    rw [mulVec_apply, sum_fin_one (show nN single1 = 1 from rfl)]
    fin_cases i
    simp only [Matrix.sub_apply, Matrix.one_apply, Qmat]
    norm_num

lemma single1_mB : ∀ j : Fin (nN single1), mBroadcast single1 j = 1 := by
  intro j
  rcases j with ⟨jv, hj⟩
  have hj1 : jv < 1 := hj
  interval_cases jv
  rw [mBroadcast, single1_mSol]
  rfl

lemma socCore_single1 : socCore single1 = .ok [(0, 0)] := by
  rw [socCore_valid single1 single1_valid,
    finRange_map_one (show nN single1 = 1 from rfl)]
  have h0 := (valid_radicand single1 single1_valid ⟨0, by norm_num [nN, single1]⟩).1
  simp only [h0]
  simp only [single1_mB]
  norm_num

/- ## Concrete evaluations: `cycle3` -/

lemma cycle3_valid : ValidInput cycle3 := by decide

lemma cycle3_Amat : ∀ i l, Amat cycle3 i l = if (i : ℕ) = (l : ℕ) then 0 else 1 := by
  intro i l
  fin_cases i <;> fin_cases l <;> norm_num [Amat, cycle3, List.get]

lemma cycle3_rowSum : ∀ i, rowSum cycle3 i = 2 := by
  intro i
  rw [rowSum, sum_fin_three (show nN cycle3 = 3 from rfl), cycle3_Amat,
    cycle3_Amat, cycle3_Amat]
  fin_cases i <;> norm_num

lemma cycle3_mSol : ∀ j : Fin (nN cycle3), mSol cycle3 j =
    some (fun l : Fin (nN cycle3) => if l = j then 3 else 2) := by
  intro j
  apply npSolve_eq
  · exact ker_IsubQ cycle3 (by decide) (by decide) _
  · funext i
    rw [mulVec_apply, sum_fin_three (show nN cycle3 = 3 from rfl)]
    simp only [Matrix.sub_apply, Matrix.one_apply, Qmat, Pmat, cycle3_rowSum,
      cycle3_Amat]
    fin_cases i <;> fin_cases j <;> norm_num [Fin.ext_iff]

lemma cycle3_mB : ∀ j : Fin (nN cycle3),
    mBroadcast cycle3 j = if (j : ℕ) = 0 then 3 else 2 := by
  intro j
  rw [mBroadcast, cycle3_mSol]
  have key : (if (⟨0, by norm_num [nN, cycle3]⟩ : Fin (nN cycle3)) = j
      then (3 : ℚ) else 2) = if (j : ℕ) = 0 then 3 else 2 := by
    by_cases h : (j : ℕ) = 0
    · rw [if_pos h, if_pos (Fin.ext h.symm)]
    · rw [if_neg h, if_neg fun he => h ((congrArg Fin.val he).symm)]
  rw [← key]
  rfl

lemma socCore_cycle3 : socCore cycle3 = .ok [(0, 6), (1, 2), (2, 2)] := by
  rw [socCore_valid cycle3 cycle3_valid,
    finRange_map_three (show nN cycle3 = 3 from rfl)]
  have h0 := (valid_radicand cycle3 cycle3_valid ⟨0, by norm_num [nN, cycle3]⟩).1
  have h1 := (valid_radicand cycle3 cycle3_valid ⟨1, by norm_num [nN, cycle3]⟩).1
  have h2 := (valid_radicand cycle3 cycle3_valid ⟨2, by norm_num [nN, cycle3]⟩).1
  simp only [h0, h1, h2]
  simp only [cycle3_mB]
  norm_num

/- ## From the core to the full function -/

lemma npSqrt_of_nonneg (x : ℚ) (h : 0 ≤ x) :
    npSqrt x = some (Real.sqrt (x : ℝ)) := by
  rw [npSqrt, if_neg (not_lt.mpr h)]

lemma soc_of_core (G : NXGraph) (L : List (ℕ × ℚ)) (h : socCore G = .ok L) :
    second_order_centrality G = .ok (L.map fun p => (p.1, npSqrt p.2)) := by
  rw [second_order_centrality, h]
  rfl

lemma soc_of_core_err (G : NXGraph) (msg : String)
    (h : socCore G = .error msg) :
    second_order_centrality G = .error msg := by
  rw [second_order_centrality, h]
  rfl

/- ## The three validation error paths -/

lemma socCore_directed (G : NXGraph) (h : G.directed = true) :
    socCore G = .error unsupportedMsg := by
  rw [socCore, if_pos h]

lemma socCore_empty (G : NXGraph) (h1 : G.directed = false) (h2 : nN G = 0) :
    socCore G = .error emptyMsg := by
  rw [socCore, if_neg (by rw [h1]; exact Bool.false_ne_true), dif_pos h2]

lemma socCore_disconnected (G : NXGraph) (h1 : G.directed = false)
    (h2 : nN G ≠ 0) (h3 : is_connected G = false) :
    socCore G = .error disconnectedMsg := by
  rw [socCore, if_neg (by rw [h1]; exact Bool.false_ne_true), dif_neg h2,
    if_neg (by rw [h3]; exact Bool.false_ne_true)]

/- ## The loop state machine computes the per-column definitions -/

lemma hc_eq_hBroadcast (G : NXGraph) (j : Fin (nN G)) :
    ((npSolve (1 - Qmat G j)
        ((1 + Qmat G j).mulVec fun _ => mBroadcast G j)).map
      fun h => h ⟨0, j.pos⟩).getD 0 = hBroadcast G j := by
  rw [hBroadcast, hSol]
  cases hm : mSol G j with
  | none =>
    have hnone : npSolve (1 - Qmat G j)
        ((1 + Qmat G j).mulVec fun _ => mBroadcast G j) = none := by
      rw [mSol, npSolve] at hm
      by_cases hd : (1 - Qmat G j).det = 0
      · rw [npSolve, if_pos hd]
      · rw [if_neg hd] at hm
        exact Option.noConfusion hm
    rw [hnone]
    rfl
  | some m => rfl

lemma loopIter_char (G : NXGraph) (s : LoopState (nN G)) (j : Fin (nN G))
    (hP : s.P = Pmat G) :
    (loopIter s j).P = Pmat G ∧
    (∀ r c, (loopIter s j).M r c =
      if c = j then mBroadcast G j else s.M r c) ∧
    (∀ r c, (loopIter s j).H r c =
      if c = j then hBroadcast G j else s.H r c) := by
  rcases s with ⟨P, M, H⟩
  have hP' : P = Pmat G := hP
  subst hP'
  refine ⟨rfl, fun r c => rfl, fun r c => ?_⟩
  show (if c = j then
      ((npSolve (1 - Qmat G j)
          ((1 + Qmat G j).mulVec fun _ => mBroadcast G j)).map
        fun h => h ⟨0, j.pos⟩).getD 0
    else H r c) =
    if c = j then hBroadcast G j else H r c
  by_cases hc : c = j
  · rw [if_pos hc, if_pos hc, hc_eq_hBroadcast]
  · rw [if_neg hc, if_neg hc]

lemma foldl_loop_char (G : NXGraph) :
    ∀ (L : List (Fin (nN G))) (s : LoopState (nN G)), s.P = Pmat G →
      (L.foldl loopIter s).P = Pmat G ∧
      (∀ r c, (L.foldl loopIter s).M r c =
        if c ∈ L then mBroadcast G c else s.M r c) ∧
      (∀ r c, (L.foldl loopIter s).H r c =
        if c ∈ L then hBroadcast G c else s.H r c) := by
  intro L
  induction L with
  | nil =>
    intro s hP
    exact ⟨hP, fun r c => by simp, fun r c => by simp⟩
  | cons a L ih =>
    intro s hP
    obtain ⟨hP1, hM1, hH1⟩ := loopIter_char G s a hP
    obtain ⟨hP2, hM2, hH2⟩ := ih (loopIter s a) hP1
    refine ⟨hP2, fun r c => ?_, fun r c => ?_⟩
    · rw [List.foldl_cons, hM2 r c]
      by_cases hcL : c ∈ L
      · rw [if_pos hcL, if_pos (List.mem_cons_of_mem a hcL)]
      · rw [if_neg hcL, hM1 r c]
        by_cases hca : c = a
        · rw [if_pos hca, if_pos (by rw [hca]; exact List.mem_cons_self a L), hca]
        · rw [if_neg hca, if_neg fun hmem => by
            rcases List.mem_cons.mp hmem with h | h
            · exact hca h
            · exact hcL h]
    · rw [List.foldl_cons, hH2 r c]
      by_cases hcL : c ∈ L
      · rw [if_pos hcL, if_pos (List.mem_cons_of_mem a hcL)]
      · rw [if_neg hcL, hH1 r c]
        by_cases hca : c = a
        · rw [if_pos hca, if_pos (by rw [hca]; exact List.mem_cons_self a L), hca]
        · rw [if_neg hca, if_neg fun hmem => by
            rcases List.mem_cons.mp hmem with h | h
            · exact hca h
            · exact hcL h]

/- ## Helpers for parametric index sizes -/

lemma list_range_map_sum (n : ℕ) (f : ℕ → ℚ) :
    ((List.range n).map f).sum = ∑ t ∈ Finset.range n, f t := by
  induction n with
  | zero => rfl
  | succ n ih =>
    rw [List.range_succ, List.map_append, List.sum_append,
      Finset.sum_range_succ, ih]
    simp

lemma sum_fin_succ_gen {n m : ℕ} (h : n = m + 1) (f : Fin n → ℚ) :
    ∑ x, f x = f ⟨0, by omega⟩ + ∑ x : Fin m, f ⟨(x : ℕ) + 1, by omega⟩ := by
  subst h
  rw [Fin.sum_univ_succ]
  congr 1

lemma sum_fin_indicator {k : ℕ} (c : ℕ) (hc : c < k) (a b : ℚ) :
    ∑ x : Fin k, (if (x : ℕ) = c then a else b) = b * k + (a - b) := by
  have hsplit : ∀ x : Fin k, (if (x : ℕ) = c then a else b) =
      b + (if (x : ℕ) = c then a - b else 0) := by
    intro x
    by_cases hx : (x : ℕ) = c
    · rw [if_pos hx, if_pos hx]; ring
    · rw [if_neg hx, if_neg hx]; ring
  rw [Finset.sum_congr rfl fun x _ => hsplit x, Finset.sum_add_distrib,
    Finset.sum_const, Finset.card_univ, Fintype.card_fin]
  have hs : ∑ x : Fin k, (if (x : ℕ) = c then a - b else 0) =
      (if (((⟨c, hc⟩ : Fin k) : ℕ)) = c then a - b else 0) :=
    Finset.sum_eq_single_of_mem _ (Finset.mem_univ _)
      (fun x _ hx => if_neg fun hv => hx (Fin.ext hv))
  rw [hs, if_pos rfl, nsmul_eq_mul]
  ring

lemma finRange_map_cast {n m : ℕ} {α : Type} (h : n = m) (f : Fin n → α) :
    (List.finRange n).map f =
      (List.finRange m).map fun x : Fin m => f ⟨(x : ℕ), h ▸ x.isLt⟩ := by
  subst h
  apply List.map_congr_left
  intro x _
  apply congrArg f
  cases x
  rfl

/- ## Parametric evaluation: star graphs -/

lemma star_nN (k : ℕ) : nN (starGraph k) = k + 1 := by
  simp [nN, starGraph]

lemma star_get (k : ℕ) (i : Fin (nN (starGraph k))) :
    (starGraph k).nodes.get i = (i : ℕ) := by
  rw [List.get_eq_getElem]
  exact List.getElem_range _ _

lemma star_edges (k : ℕ) :
    (starGraph k).edges = (List.range k).map fun t => ((0 : ℕ), t + 1, (1 : ℚ)) := rfl

lemma star_weights (k : ℕ) : ∀ e ∈ (starGraph k).edges, 0 < e.2.2 := by
  intro e he
  rw [star_edges] at he
  obtain ⟨t, _, rfl⟩ := List.mem_map.mp he
  norm_num

lemma star_Amat (k : ℕ) (i l : Fin (nN (starGraph k))) :
    Amat (starGraph k) i l =
      if ((i : ℕ) = 0 ∧ (l : ℕ) ≠ 0) ∨ ((l : ℕ) = 0 ∧ (i : ℕ) ≠ 0)
      then 1 else 0 := by
  have hl1 : (l : ℕ) < k + 1 := (star_nN k) ▸ l.isLt
  have hi1 : (i : ℕ) < k + 1 := (star_nN k) ▸ i.isLt
  rw [Amat, star_edges, List.map_map, list_range_map_sum]
  simp only [Function.comp, star_get]
  by_cases hi : (i : ℕ) = 0 <;> by_cases hl : (l : ℕ) = 0
  · rw [if_neg (by omega)]
    apply Finset.sum_eq_zero
    intro t _
    exact if_neg (by omega)
  · rw [if_pos (by omega)]
    have hs : ∑ t ∈ Finset.range k,
        (if ((0 : ℕ) = (i : ℕ) ∧ t + 1 = (l : ℕ)) ∨
            ((0 : ℕ) = (l : ℕ) ∧ t + 1 = (i : ℕ)) then (1 : ℚ) else 0) =
        (if ((0 : ℕ) = (i : ℕ) ∧ ((l : ℕ) - 1) + 1 = (l : ℕ)) ∨
            ((0 : ℕ) = (l : ℕ) ∧ ((l : ℕ) - 1) + 1 = (i : ℕ)) then (1 : ℚ) else 0) :=
      Finset.sum_eq_single_of_mem _ (Finset.mem_range.mpr (by omega))
        (fun t _ htne => if_neg (by omega))
    rw [hs, if_pos (by omega)]
  · rw [if_pos (by omega)]
    have hs : ∑ t ∈ Finset.range k,
        (if ((0 : ℕ) = (i : ℕ) ∧ t + 1 = (l : ℕ)) ∨
            ((0 : ℕ) = (l : ℕ) ∧ t + 1 = (i : ℕ)) then (1 : ℚ) else 0) =
        (if ((0 : ℕ) = (i : ℕ) ∧ ((i : ℕ) - 1) + 1 = (l : ℕ)) ∨
            ((0 : ℕ) = (l : ℕ) ∧ ((i : ℕ) - 1) + 1 = (i : ℕ)) then (1 : ℚ) else 0) :=
      Finset.sum_eq_single_of_mem _ (Finset.mem_range.mpr (by omega))
        (fun t _ htne => if_neg (by omega))
    rw [hs, if_pos (by omega)]
  · rw [if_neg (by omega)]
    apply Finset.sum_eq_zero
    intro t _
    exact if_neg (by omega)

lemma star_rowSum_hub (k : ℕ) (i : Fin (nN (starGraph k))) (hi : (i : ℕ) = 0) :
    rowSum (starGraph k) i = k := by
  rw [rowSum, sum_fin_succ_gen (star_nN k)]
  simp only [star_Amat]
  simp [hi, Finset.sum_const, Finset.card_univ, nsmul_eq_mul]

lemma star_rowSum_leaf (k : ℕ) (i : Fin (nN (starGraph k))) (hi : (i : ℕ) ≠ 0) :
    rowSum (starGraph k) i = 1 := by
  rw [rowSum, sum_fin_succ_gen (star_nN k)]
  simp only [star_Amat]
  simp [hi]

lemma star_Pmat (k : ℕ) (i l : Fin (nN (starGraph k))) :
    Pmat (starGraph k) i l =
      if (i : ℕ) = 0 then (if (l : ℕ) = 0 then (0 : ℚ) else 1 / (k : ℚ))
      else (if (l : ℕ) = 0 then (1 : ℚ) else 0) := by
  show Amat (starGraph k) i l / rowSum (starGraph k) i = _
  by_cases hi : (i : ℕ) = 0
  · rw [star_rowSum_hub k i hi, star_Amat, if_pos hi]
    by_cases hl : (l : ℕ) = 0
    · rw [if_pos hl, if_neg (by omega)]
      exact zero_div _
    · rw [if_neg hl, if_pos (by omega)]
  · rw [star_rowSum_leaf k i hi, star_Amat, if_neg hi, div_one]
    by_cases hl : (l : ℕ) = 0
    · rw [if_pos hl, if_pos (by omega)]
    · rw [if_neg hl, if_neg (by omega)]

lemma stepSet_univ_fixed (G : NXGraph) :
    stepSet G Finset.univ = Finset.univ :=
  le_antisymm (Finset.subset_univ _) Finset.subset_union_left

lemma star_connected (k : ℕ) : is_connected (starGraph k) = true := by
  have hpos : 0 < nN (starGraph k) := by rw [star_nN]; omega
  rw [is_connected, dif_pos hpos, decide_eq_true_eq]
  have hstep1 : stepSet (starGraph k) {⟨0, hpos⟩} = Finset.univ := by
    apply Finset.eq_univ_iff_forall.mpr
    intro x
    rw [stepSet, Finset.mem_union]
    by_cases hx : (x : ℕ) = 0
    · left
      rw [Finset.mem_singleton]
      exact Fin.ext hx
    · right
      rw [Finset.mem_filter]
      refine ⟨Finset.mem_univ x, ⟨0, hpos⟩, Finset.mem_singleton_self _, ?_⟩
      rw [adjB, List.any_eq_true]
      have hx1 : (x : ℕ) < k + 1 := (star_nN k) ▸ x.isLt
      refine ⟨((0 : ℕ), ((x : ℕ) - 1) + 1, (1 : ℚ)), ?_, ?_⟩
      · rw [star_edges]
        exact List.mem_map.mpr ⟨(x : ℕ) - 1, List.mem_range.mpr (by omega), rfl⟩
      · rw [decide_eq_true_eq, star_get, star_get]
        left
        refine ⟨rfl, ?_⟩
        show (x : ℕ) - 1 + 1 = (x : ℕ)
        omega
  have hgen : ∀ m, m = k + 1 →
      (stepSet (starGraph k))^[m] {⟨0, hpos⟩} = Finset.univ := by
    intro m hm
    subst hm
    rw [Function.iterate_succ_apply, hstep1,
      Function.iterate_fixed (stepSet_univ_fixed _) k]
  exact hgen _ (star_nN k)

lemma star_valid (k : ℕ) : ValidInput (starGraph k) := by
  refine ⟨rfl, by rw [star_nN]; omega, star_connected k, star_weights k⟩

lemma star_mSol_hub (k : ℕ) (hk : 1 ≤ k) (j : Fin (nN (starGraph k)))
    (hj : (j : ℕ) = 0) :
    mSol (starGraph k) j =
      some (fun l : Fin (nN (starGraph k)) =>
        if (l : ℕ) = 0 then 2 else 1) := by
  have hkQ : (k : ℚ) ≠ 0 := Nat.cast_ne_zero.mpr (by omega)
  apply npSolve_eq
  · exact ker_IsubQ _ (star_weights k) (star_connected k) _
  · funext i
    have hik : (i : ℕ) < k + 1 := (star_nN k) ▸ i.isLt
    rw [mulVec_apply, sum_fin_succ_gen (star_nN k)]
    simp only [Matrix.sub_apply, Matrix.one_apply, Qmat, star_Pmat]
    by_cases hi : (i : ℕ) = 0
    · simp [hi, hj, Fin.ext_iff, Finset.sum_const, Finset.card_univ,
        nsmul_eq_mul]
      field_simp
      norm_num
    · simp [hi, hj, Fin.ext_iff]
      rw [Finset.card_eq_one]
      refine ⟨⟨(i : ℕ) - 1, by omega⟩, ?_⟩
      ext x
      simp only [Finset.mem_filter, Finset.mem_univ, true_and,
        Finset.mem_singleton, Fin.ext_iff]
      omega

lemma star_mSol_leaf (k : ℕ) (hk : 1 ≤ k) (j : Fin (nN (starGraph k)))
    (hj : (j : ℕ) ≠ 0) :
    mSol (starGraph k) j =
      some (fun l : Fin (nN (starGraph k)) =>
        if (l : ℕ) = 0 then 2 * (k : ℚ) - 1 else 2 * (k : ℚ)) := by
  have hkQ : (k : ℚ) ≠ 0 := Nat.cast_ne_zero.mpr (by omega)
  have hjk : (j : ℕ) < k + 1 := (star_nN k) ▸ j.isLt
  apply npSolve_eq
  · exact ker_IsubQ _ (star_weights k) (star_connected k) _
  · funext i
    have hik : (i : ℕ) < k + 1 := (star_nN k) ▸ i.isLt
    rw [mulVec_apply, sum_fin_succ_gen (star_nN k)]
    simp only [Matrix.sub_apply, Matrix.one_apply, Qmat, star_Pmat]
    by_cases hi : (i : ℕ) = 0
    · simp [hi, hj, Fin.ext_iff]
      have hconv : ∀ x : Fin k,
          (if (x : ℕ) + 1 = (j : ℕ) then (0 : ℚ) else (k : ℚ)⁻¹ * (2 * (k : ℚ))) =
          (if (x : ℕ) = (j : ℕ) - 1 then (0 : ℚ) else 2) := by
        intro x
        by_cases hx : (x : ℕ) + 1 = (j : ℕ)
        · rw [if_pos hx, if_pos (by omega)]
        · rw [if_neg hx, if_neg (by omega)]
          field_simp
      rw [Finset.sum_congr rfl fun x _ => hconv x,
        sum_fin_indicator ((j : ℕ) - 1) (by omega) 0 2]
      ring
    · simp [hi, hj, Fin.ext_iff]
      rw [if_neg fun h => hj h.symm]
      have hconv : ∀ x : Fin k,
          (if (i : ℕ) = (x : ℕ) + 1 then 2 * (k : ℚ) else 0) =
          (if (x : ℕ) = (i : ℕ) - 1 then 2 * (k : ℚ) else 0) :=
        fun x => if_congr (by omega) rfl rfl
      rw [Finset.sum_congr rfl fun x _ => hconv x,
        sum_fin_indicator ((i : ℕ) - 1) (by omega) (2 * (k : ℚ)) 0]
      ring

lemma star_mB (k : ℕ) (hk : 1 ≤ k) (j : Fin (nN (starGraph k))) :
    mBroadcast (starGraph k) j =
      if (j : ℕ) = 0 then 2 else 2 * (k : ℚ) - 1 := by
  by_cases hj : (j : ℕ) = 0
  · rw [mBroadcast, star_mSol_hub k hk j hj, if_pos hj]
    show (if ((⟨0, j.pos⟩ : Fin (nN (starGraph k))) : ℕ) = 0
      then (2 : ℚ) else 1) = 2
    rw [if_pos rfl]
  · rw [mBroadcast, star_mSol_leaf k hk j hj, if_neg hj]
    show (if ((⟨0, j.pos⟩ : Fin (nN (starGraph k))) : ℕ) = 0
      then 2 * (k : ℚ) - 1 else 2 * (k : ℚ)) = 2 * (k : ℚ) - 1
    rw [if_pos rfl]

theorem socCore_star (k : ℕ) (hk : 1 ≤ k) :
    socCore (starGraph k) =
      .ok ((List.finRange (nN (starGraph k))).map
        fun c : Fin (nN (starGraph k)) =>
        ((c : ℕ), if (c : ℕ) = 0 then (2 : ℚ)
          else (2 * (k : ℚ) - 1) ^ 2 - (2 * (k : ℚ) - 1))) := by
  rw [socCore_valid _ (star_valid k)]
  congr 1
  apply List.map_congr_left
  intro c _
  rw [(valid_radicand _ (star_valid k) c).1, star_mB k hk c]
  by_cases hc : (c : ℕ) = 0
  · rw [if_pos hc, if_pos hc]
    norm_num
  · rw [if_neg hc, if_neg hc]

/- ## Parametric evaluation: complete graphs -/

lemma list_range_flatMap_sum (n : ℕ) (h : ℕ → List ℚ) :
    ((List.range n).flatMap h).sum = ∑ a ∈ Finset.range n, (h a).sum := by
  induction n with
  | zero => rfl
  | succ n ih =>
    rw [List.range_succ, List.flatMap_append, List.sum_append,
      Finset.sum_range_succ, ih]
    simp

lemma sum_fin_cast {n m : ℕ} (h : n = m) (f : Fin n → ℚ) :
    ∑ x, f x = ∑ x : Fin m, f ⟨(x : ℕ), h ▸ x.isLt⟩ := by
  subst h
  apply Finset.sum_congr rfl
  intro x _
  apply congrArg f
  cases x
  rfl

lemma complete_nN (n : ℕ) : nN (completeG n) = n := by
  simp [nN, completeG]

lemma complete_get (n : ℕ) (i : Fin (nN (completeG n))) :
    (completeG n).nodes.get i = (i : ℕ) := by
  rw [List.get_eq_getElem]
  exact List.getElem_range _ _

lemma complete_edges (n : ℕ) :
    (completeG n).edges =
      (List.range n).flatMap fun a => (List.range a).map fun b => (b, a, (1 : ℚ)) := rfl

lemma complete_weights (n : ℕ) : ∀ e ∈ (completeG n).edges, 0 < e.2.2 := by
  intro e he
  rw [complete_edges] at he
  obtain ⟨a, _, hmem⟩ := List.mem_flatMap.mp he
  obtain ⟨b, _, rfl⟩ := List.mem_map.mp hmem
  norm_num

lemma complete_Amat (n : ℕ) (i l : Fin (nN (completeG n))) :
    Amat (completeG n) i l = if (i : ℕ) = (l : ℕ) then 0 else 1 := by
  have hi1 : (i : ℕ) < n := i.isLt.trans_le (complete_nN n).le
  have hl1 : (l : ℕ) < n := l.isLt.trans_le (complete_nN n).le
  rw [Amat, complete_edges, List.map_flatMap, list_range_flatMap_sum]
  have hmm : ∀ a : ℕ, (((List.range a).map fun b => (b, a, (1 : ℚ))).map fun e =>
      if (e.1 = (completeG n).nodes.get i ∧ e.2.1 = (completeG n).nodes.get l) ∨
         (e.1 = (completeG n).nodes.get l ∧ e.2.1 = (completeG n).nodes.get i)
      then e.2.2 else 0) =
      (List.range a).map fun b =>
        if (b = (i : ℕ) ∧ a = (l : ℕ)) ∨ (b = (l : ℕ) ∧ a = (i : ℕ))
        then (1 : ℚ) else 0 := by
    intro a
    rw [List.map_map]
    apply List.map_congr_left
    intro b _
    simp only [Function.comp, complete_get]
  rw [Finset.sum_congr rfl fun a _ => by rw [hmm a, list_range_map_sum]]
  by_cases hil : (i : ℕ) = (l : ℕ)
  · rw [if_pos hil]
    apply Finset.sum_eq_zero
    intro a ha
    apply Finset.sum_eq_zero
    intro b hb
    rw [Finset.mem_range] at hb
    exact if_neg (by omega)
  · rw [if_neg hil]
    rcases Nat.lt_or_ge (i : ℕ) (l : ℕ) with hlt | hge
    · have houter : ∑ a ∈ Finset.range n, ∑ b ∈ Finset.range a,
          (if (b = (i : ℕ) ∧ a = (l : ℕ)) ∨ (b = (l : ℕ) ∧ a = (i : ℕ))
           then (1 : ℚ) else 0) =
          ∑ b ∈ Finset.range (l : ℕ),
            (if (b = (i : ℕ) ∧ (l : ℕ) = (l : ℕ)) ∨
                (b = (l : ℕ) ∧ (l : ℕ) = (i : ℕ)) then (1 : ℚ) else 0) :=
        Finset.sum_eq_single_of_mem _ (Finset.mem_range.mpr hl1)
          (fun a _ hane => Finset.sum_eq_zero fun b hb =>
            if_neg (by rw [Finset.mem_range] at hb; omega))
      rw [houter]
      have hinner : ∑ b ∈ Finset.range (l : ℕ),
          (if (b = (i : ℕ) ∧ (l : ℕ) = (l : ℕ)) ∨
              (b = (l : ℕ) ∧ (l : ℕ) = (i : ℕ)) then (1 : ℚ) else 0) =
          (if ((i : ℕ) = (i : ℕ) ∧ (l : ℕ) = (l : ℕ)) ∨
              ((i : ℕ) = (l : ℕ) ∧ (l : ℕ) = (i : ℕ)) then (1 : ℚ) else 0) :=
        Finset.sum_eq_single_of_mem _ (Finset.mem_range.mpr hlt)
          (fun b _ hbne => if_neg (by omega))
      rw [hinner, if_pos (by omega)]
    · have hgt : (l : ℕ) < (i : ℕ) := by omega
      have houter : ∑ a ∈ Finset.range n, ∑ b ∈ Finset.range a,
          (if (b = (i : ℕ) ∧ a = (l : ℕ)) ∨ (b = (l : ℕ) ∧ a = (i : ℕ))
           then (1 : ℚ) else 0) =
          ∑ b ∈ Finset.range (i : ℕ),
            (if (b = (i : ℕ) ∧ (i : ℕ) = (l : ℕ)) ∨
                (b = (l : ℕ) ∧ (i : ℕ) = (i : ℕ)) then (1 : ℚ) else 0) :=
        Finset.sum_eq_single_of_mem _ (Finset.mem_range.mpr hi1)
          (fun a _ hane => Finset.sum_eq_zero fun b hb =>
            if_neg (by rw [Finset.mem_range] at hb; omega))
      rw [houter]
      have hinner : ∑ b ∈ Finset.range (i : ℕ),
          (if (b = (i : ℕ) ∧ (i : ℕ) = (l : ℕ)) ∨
              (b = (l : ℕ) ∧ (i : ℕ) = (i : ℕ)) then (1 : ℚ) else 0) =
          (if ((l : ℕ) = (i : ℕ) ∧ (i : ℕ) = (l : ℕ)) ∨
              ((l : ℕ) = (l : ℕ) ∧ (i : ℕ) = (i : ℕ)) then (1 : ℚ) else 0) :=
        Finset.sum_eq_single_of_mem _ (Finset.mem_range.mpr hgt)
          (fun b _ hbne => if_neg (by omega))
      rw [hinner, if_pos (by omega)]

lemma complete_rowSum (n : ℕ) (i : Fin (nN (completeG n))) :
    rowSum (completeG n) i = (n : ℚ) - 1 := by
  have hi1 : (i : ℕ) < n := i.isLt.trans_le (complete_nN n).le
  rw [rowSum, sum_fin_cast (complete_nN n)]
  have hconv : ∀ x : Fin n,
      Amat (completeG n) i ⟨(x : ℕ), x.isLt.trans_le (complete_nN n).ge⟩ =
      (if (x : ℕ) = (i : ℕ) then (0 : ℚ) else 1) := by
    intro x
    rw [complete_Amat,
      show ((⟨(x : ℕ), x.isLt.trans_le (complete_nN n).ge⟩ :
        Fin (nN (completeG n))) : ℕ) = (x : ℕ) from rfl]
    exact if_congr eq_comm rfl rfl
  rw [Finset.sum_congr rfl fun x _ => hconv x,
    sum_fin_indicator ((i : ℕ)) hi1 0 1]
  ring

lemma complete_Pmat (n : ℕ) (i l : Fin (nN (completeG n))) :
    Pmat (completeG n) i l =
      if (i : ℕ) = (l : ℕ) then (0 : ℚ) else 1 / ((n : ℚ) - 1) := by
  show Amat (completeG n) i l / rowSum (completeG n) i = _
  rw [complete_rowSum, complete_Amat]
  by_cases hil : (i : ℕ) = (l : ℕ)
  · rw [if_pos hil, if_pos hil]
    exact zero_div _
  · rw [if_neg hil, if_neg hil]

lemma complete_connected (n : ℕ) (h1 : 1 ≤ n) :
    is_connected (completeG n) = true := by
  have hpos : 0 < nN (completeG n) := by rw [complete_nN]; omega
  rw [is_connected, dif_pos hpos, decide_eq_true_eq]
  have hstep1 : stepSet (completeG n) {⟨0, hpos⟩} = Finset.univ := by
    apply Finset.eq_univ_iff_forall.mpr
    intro x
    rw [stepSet, Finset.mem_union]
    by_cases hx : (x : ℕ) = 0
    · left
      rw [Finset.mem_singleton]
      exact Fin.ext hx
    · right
      rw [Finset.mem_filter]
      refine ⟨Finset.mem_univ x, ⟨0, hpos⟩, Finset.mem_singleton_self _, ?_⟩
      rw [adjB, List.any_eq_true]
      have hx1 : (x : ℕ) < n := x.isLt.trans_le (complete_nN n).le
      refine ⟨((0 : ℕ), (x : ℕ), (1 : ℚ)), ?_, ?_⟩
      · rw [complete_edges]
        exact List.mem_flatMap.mpr ⟨(x : ℕ), List.mem_range.mpr hx1,
          List.mem_map.mpr ⟨0, List.mem_range.mpr (by omega), rfl⟩⟩
      · rw [decide_eq_true_eq, complete_get, complete_get]
        left
        exact ⟨rfl, rfl⟩
  have hgen : ∀ m, m = n →
      (stepSet (completeG n))^[m] {⟨0, hpos⟩} = Finset.univ := by
    intro m hm
    obtain ⟨p, rfl⟩ : ∃ p, m = p + 1 := ⟨m - 1, by omega⟩
    rw [Function.iterate_succ_apply, hstep1,
      Function.iterate_fixed (stepSet_univ_fixed _) p]
  exact hgen _ (complete_nN n)

lemma complete_valid (n : ℕ) (h1 : 1 ≤ n) : ValidInput (completeG n) :=
  ⟨rfl, by rw [complete_nN]; omega, complete_connected n h1, complete_weights n⟩

lemma complete_mSol (n : ℕ) (h2 : 2 ≤ n) (j : Fin (nN (completeG n))) :
    mSol (completeG n) j =
      some (fun l : Fin (nN (completeG n)) =>
        if l = j then (n : ℚ) else (n : ℚ) - 1) := by
  have hn1 : ((n : ℚ) - 1) ≠ 0 := by
    have h2Q : (2 : ℚ) ≤ (n : ℚ) := by exact_mod_cast h2
    linarith
  apply npSolve_eq
  · exact ker_IsubQ _ (complete_weights n) (complete_connected n (by omega)) _
  · funext i
    have hik : (i : ℕ) < n := i.isLt.trans_le (complete_nN n).le
    have hjk : (j : ℕ) < n := j.isLt.trans_le (complete_nN n).le
    rw [mulVec_apply, sum_fin_cast (complete_nN n)]
    have key : ∀ x : Fin n,
        (1 - Qmat (completeG n) j) i
            ⟨(x : ℕ), x.isLt.trans_le (complete_nN n).ge⟩ *
          (if (⟨(x : ℕ), x.isLt.trans_le (complete_nN n).ge⟩ :
              Fin (nN (completeG n))) = j
            then (n : ℚ) else (n : ℚ) - 1) =
        (if (x : ℕ) = (i : ℕ) then (n : ℚ) else 0) +
          (if (x : ℕ) = (j : ℕ) then (1 : ℚ) else 0) + (-1) := by
      intro x
      set lx : Fin (nN (completeG n)) :=
        ⟨(x : ℕ), x.isLt.trans_le (complete_nN n).ge⟩ with hlx
      simp only [Matrix.sub_apply, Matrix.one_apply, Qmat, complete_Pmat]
      by_cases hxi : (x : ℕ) = (i : ℕ) <;> by_cases hxj : (x : ℕ) = (j : ℕ)
      · rw [if_pos (Fin.ext hxi.symm : i = lx), if_pos (Fin.ext hxj : lx = j),
          if_pos (Fin.ext hxj : lx = j), if_pos hxi, if_pos hxj]
        ring
      · rw [if_pos (Fin.ext hxi.symm : i = lx),
          if_neg (fun h : lx = j => hxj (congrArg Fin.val h)),
          if_neg (fun h : lx = j => hxj (congrArg Fin.val h)),
          if_pos (hxi.symm : (i : ℕ) = (lx : ℕ)), if_pos hxi, if_neg hxj]
        ring
      · rw [if_neg (fun h : i = lx => hxi ((congrArg Fin.val h).symm)),
          if_pos (Fin.ext hxj : lx = j), if_pos (Fin.ext hxj : lx = j),
          if_neg hxi, if_pos hxj]
        ring
      · rw [if_neg (fun h : i = lx => hxi ((congrArg Fin.val h).symm)),
          if_neg (fun h : lx = j => hxj (congrArg Fin.val h)),
          if_neg (fun h : lx = j => hxj (congrArg Fin.val h)),
          if_neg (fun h : (i : ℕ) = (lx : ℕ) => hxi (h.symm)),
          if_neg hxi, if_neg hxj]
        field_simp
    rw [Finset.sum_congr rfl fun x _ => key x]
    rw [Finset.sum_add_distrib, Finset.sum_add_distrib,
      sum_fin_indicator (i : ℕ) hik (n : ℚ) 0,
      sum_fin_indicator (j : ℕ) hjk 1 0,
      Finset.sum_const, Finset.card_univ, Fintype.card_fin, nsmul_eq_mul]
    ring

lemma complete_mB (n : ℕ) (h2 : 2 ≤ n) (j : Fin (nN (completeG n))) :
    mBroadcast (completeG n) j =
      if (j : ℕ) = 0 then (n : ℚ) else (n : ℚ) - 1 := by
  rw [mBroadcast, complete_mSol n h2 j]
  have key : (if (⟨0, j.pos⟩ : Fin (nN (completeG n))) = j then (n : ℚ)
      else (n : ℚ) - 1) = if (j : ℕ) = 0 then (n : ℚ) else (n : ℚ) - 1 := by
    by_cases h : (j : ℕ) = 0
    · rw [if_pos (Fin.ext h.symm), if_pos h]
    · rw [if_neg fun he => h ((congrArg Fin.val he).symm), if_neg h]
  rw [← key]
  rfl

theorem socCore_complete (n : ℕ) (h2 : 2 ≤ n) :
    socCore (completeG n) =
      .ok ((List.finRange (nN (completeG n))).map
        fun c : Fin (nN (completeG n)) =>
        ((c : ℕ), if (c : ℕ) = 0 then (n : ℚ) ^ 2 - (n : ℚ)
          else ((n : ℚ) - 1) ^ 2 - ((n : ℚ) - 1))) := by
  rw [socCore_valid _ (complete_valid n (by omega))]
  congr 1
  apply List.map_congr_left
  intro c _
  rw [(valid_radicand _ (complete_valid n (by omega)) c).1, complete_mB n h2 c]
  by_cases hc : (c : ℕ) = 0
  · rw [if_pos hc, if_pos hc]
  · rw [if_neg hc, if_neg hc]

/- ## Claim theorems -/

/-- Claim C1, counterexample: on the two-node path graph, column 0 of `M`
does not satisfy `(I - Q₀) m = 1`, so it is not the solution vector of
that system (the code broadcasts the solution's first component over the
whole column instead). -/
theorem C1_counterexample :
    (1 - Qmat path2 ⟨0, by norm_num [nN, path2]⟩).mulVec
      (fun r => Mmat path2 r ⟨0, by norm_num [nN, path2]⟩) ≠
    (fun _ => 1) := by
  intro hcontra
  have h0 := congrFun hcontra ⟨0, by norm_num [nN, path2]⟩
  rw [mulVec_apply, sum_fin_two (show nN path2 = 2 from rfl)] at h0
  simp only [Matrix.sub_apply, Matrix.one_apply, Qmat, Pmat, path2_rowSum,
    path2_Amat, Mmat, path2_mB] at h0
  norm_num [Fin.ext_iff] at h0

/-- Claim C1, amended: on every valid input and for every target `j`,
every entry of column `j` of `M` equals the first component `m[0]` of the
solution `m` of `(I - Qⱼ) m = 1` (the full vector is collapsed by
broadcasting), and every entry of column `j` of `H` equals the first
component `h[0]` of the solution of
`(I - Qⱼ) h = (I + Qⱼ) · (m[0] · 1)`, whose right-hand side uses the
broadcast constant column, not the full solution `m`. -/
theorem C1_amended (G : NXGraph) (hv : ValidInput G) (j : Fin (nN G)) :
    ∃ m h : Fin (nN G) → ℚ,
      (1 - Qmat G j).mulVec m = (fun _ => 1) ∧
      (∀ r, Mmat G r j = m ⟨0, j.pos⟩) ∧
      (1 - Qmat G j).mulVec h =
        (1 + Qmat G j).mulVec (fun _ => m ⟨0, j.pos⟩) ∧
      (∀ r, Hmat G r j = h ⟨0, j.pos⟩) := by
  obtain ⟨m, hmeq, hmsolve, hmb, hheq⟩ := valid_hSol G hv j
  refine ⟨m, fun l => mBroadcast G j * (2 * m l - 1), hmsolve,
    fun r => hmb, ?_, fun r => ?_⟩
  · rw [hmb]
    exact hvec_solves G j m _ hmsolve
  · show hBroadcast G j = _
    rw [hBroadcast, hheq]
    rfl

/-- Witness for the amended claim C1, at the two-node path graph and
target column 0. -/
theorem C1_witness :
    ValidInput path2 ∧
    ∃ m h : Fin (nN path2) → ℚ,
      (1 - Qmat path2 ⟨0, by norm_num [nN, path2]⟩).mulVec m = (fun _ => 1) ∧
      (∀ r, Mmat path2 r ⟨0, by norm_num [nN, path2]⟩ =
        m ⟨0, Fin.pos ⟨0, by norm_num [nN, path2]⟩⟩) ∧
      (1 - Qmat path2 ⟨0, by norm_num [nN, path2]⟩).mulVec h =
        (1 + Qmat path2 ⟨0, by norm_num [nN, path2]⟩).mulVec
          (fun _ => m ⟨0, Fin.pos ⟨0, by norm_num [nN, path2]⟩⟩) ∧
      (∀ r, Hmat path2 r ⟨0, by norm_num [nN, path2]⟩ =
        h ⟨0, Fin.pos ⟨0, by norm_num [nN, path2]⟩⟩) :=
  ⟨by decide, C1_amended path2 (by decide) ⟨0, by norm_num [nN, path2]⟩⟩

/-- Claim C2: on every valid input the call returns, and the entry for
position `k` is the pair of the key `k` and
`sqrt(H[0, k] - M[0, k] ^ 2)` — read from row 0 of `H` and `M`. -/
theorem C2_row_zero_formula (G : NXGraph) (hv : ValidInput G) :
    second_order_centrality G =
      .ok ((List.finRange (nN G)).map fun k : Fin (nN G) =>
        ((k : ℕ), npSqrt (Hmat G ⟨0, k.pos⟩ k - (Mmat G ⟨0, k.pos⟩ k) ^ 2))) := by
  rw [soc_of_core _ _ (socCore_valid G hv), List.map_map]
  rfl

/-- Witness for claim C2 at the two-node path graph. -/
theorem C2_witness :
    ValidInput path2 ∧
    second_order_centrality path2 =
      .ok ((List.finRange (nN path2)).map fun k : Fin (nN path2) =>
        ((k : ℕ),
          npSqrt (Hmat path2 ⟨0, k.pos⟩ k - (Mmat path2 ⟨0, k.pos⟩ k) ^ 2))) :=
  ⟨by decide, C2_row_zero_formula path2 (by decide)⟩

/-- Claim C3 (code bug): on the graph whose nodes are labelled 5 and 9,
the returned mapping is keyed by the `enumerate` positions 0 and 1, not by
the node labels — contradicting the docstring ("Dictionary keyed by
node"). -/
theorem C3_keys_enumerate :
    g59.nodes = [5, 9] ∧
    (second_order_centrality g59).map (List.map Prod.fst) = .ok [0, 1] := by
  refine ⟨rfl, ?_⟩
  rw [soc_of_core _ _ socCore_g59]
  rfl

/-- Claim C4, counterexample: the zero-node directed graph is a zero-node
input, yet it fails with the unsupported-graph error (the decorator runs
first), not with the empty-graph error. -/
theorem C4_counterexample :
    second_order_centrality emptyDirected = .error unsupportedMsg ∧
    unsupportedMsg ≠ emptyMsg := by
  exact ⟨soc_of_core_err _ _ (socCore_directed emptyDirected rfl), by decide⟩

/-- Claim C4, amended: directedness is checked first; among undirected
inputs, a zero-node input fails with the empty-graph error and a
non-empty disconnected input fails with the disconnected-graph error.
In each case the result is an error value, so no partial mapping is
returned. -/
theorem C4_amended (G : NXGraph) :
    (G.directed = true →
      second_order_centrality G = .error unsupportedMsg) ∧
    (G.directed = false → nN G = 0 →
      second_order_centrality G = .error emptyMsg) ∧
    (G.directed = false → nN G ≠ 0 → is_connected G = false →
      second_order_centrality G = .error disconnectedMsg) :=
  ⟨fun h => soc_of_core_err _ _ (socCore_directed G h),
   fun h1 h2 => soc_of_core_err _ _ (socCore_empty G h1 h2),
   fun h1 h2 h3 => soc_of_core_err _ _ (socCore_disconnected G h1 h2 h3)⟩

/-- Witness for the amended claim C4: a directed graph, the empty
undirected graph, and a two-node graph with no edges. -/
theorem C4_witness :
    second_order_centrality directed2 = .error unsupportedMsg ∧
    second_order_centrality empty0 = .error emptyMsg ∧
    second_order_centrality disc2 = .error disconnectedMsg :=
  ⟨(C4_amended directed2).1 rfl,
   (C4_amended empty0).2.1 rfl rfl,
   (C4_amended disc2).2.2 rfl (by decide) (by decide)⟩

/-- Claim C5: on every valid input, every returned value is `some r` with
`r ≥ 0` — no NaN is produced and no negative argument reaches the square
root (in exact arithmetic the radicand equals `m₀² - m₀` with `m₀ ≥ 1`). -/
theorem C5_values_nonneg (G : NXGraph) (hv : ValidInput G) :
    ∃ res, second_order_centrality G = .ok res ∧
      ∀ p ∈ res, ∃ r : ℝ, p.2 = some r ∧ 0 ≤ r := by
  refine ⟨_, soc_of_core _ _ (socCore_valid G hv), ?_⟩
  intro p hp
  rw [List.mem_map] at hp
  obtain ⟨q, hq, rfl⟩ := hp
  rw [List.mem_map] at hq
  obtain ⟨c, _, rfl⟩ := hq
  obtain ⟨hrad, hge1⟩ := valid_radicand G hv c
  have hnn : 0 ≤ hBroadcast G c - mBroadcast G c ^ 2 := by
    rw [hrad]
    nlinarith
  exact ⟨Real.sqrt _, by rw [npSqrt_of_nonneg _ hnn], Real.sqrt_nonneg _⟩

/-- Witness for claim C5 at the triangle graph. -/
theorem C5_witness :
    ValidInput cycle3 ∧
    ∃ res, second_order_centrality cycle3 = .ok res ∧
      ∀ p ∈ res, ∃ r : ℝ, p.2 = some r ∧ 0 ≤ r :=
  ⟨by decide, C5_values_nonneg cycle3 (by decide)⟩

/-- Claim C6: the single-node graph is accepted and its lone SOC value is
exactly 0. -/
theorem C6_single_node :
    second_order_centrality single1 = .ok [(0, some 0)] := by
  rw [soc_of_core _ _ socCore_single1]
  have : npSqrt 0 = some 0 := by
    rw [npSqrt_of_nonneg 0 le_rfl]
    norm_num
  rw [List.map_cons, List.map_nil, this]

/-- Claim C7: for every star graph with `k ≥ 2` leaves, the hub (key 0)
receives `sqrt 2`, every leaf receives the equal value
`sqrt((2k - 1)(2k - 2))`, and the hub's value is strictly smaller — so
the hub is the unique minimum, as in the `star_graph(10)` example. -/
theorem C7_star_hub_min (k : ℕ) (hk : 2 ≤ k) :
    second_order_centrality (starGraph k) =
      .ok ((List.finRange (nN (starGraph k))).map
        fun c : Fin (nN (starGraph k)) =>
        ((c : ℕ), if (c : ℕ) = 0 then some (Real.sqrt 2)
          else some (Real.sqrt ((2 * (k : ℝ) - 1) * (2 * (k : ℝ) - 2))))) ∧
    Real.sqrt 2 < Real.sqrt ((2 * (k : ℝ) - 1) * (2 * (k : ℝ) - 2)) := by
  have hkQ : (2 : ℚ) ≤ (k : ℚ) := by exact_mod_cast hk
  have hkR : (2 : ℝ) ≤ (k : ℝ) := by exact_mod_cast hk
  constructor
  · rw [soc_of_core _ _ (socCore_star k (by omega)), List.map_map]
    congr 1
    apply List.map_congr_left
    intro c _
    simp only [Function.comp]
    congr 1
    by_cases hc : (c : ℕ) = 0
    · rw [if_pos hc, if_pos hc, npSqrt_of_nonneg _ (by norm_num)]
      norm_num
    · rw [if_neg hc, if_neg hc,
        npSqrt_of_nonneg _ (by nlinarith)]
      congr 1
      push_cast
      ring
  · apply Real.sqrt_lt_sqrt (by norm_num)
    nlinarith

/-- Witness for claim C7 at `star_graph(10)`: hub plus ten leaves. -/
theorem C7_witness :
    2 ≤ 10 ∧
    (second_order_centrality (starGraph 10) =
      .ok ((List.finRange (nN (starGraph 10))).map
        fun c : Fin (nN (starGraph 10)) =>
        ((c : ℕ), if (c : ℕ) = 0 then some (Real.sqrt 2)
          else some (Real.sqrt
            ((2 * ((10 : ℕ) : ℝ) - 1) * (2 * ((10 : ℕ) : ℝ) - 2))))) ∧
     Real.sqrt 2 <
       Real.sqrt ((2 * ((10 : ℕ) : ℝ) - 1) * (2 * ((10 : ℕ) : ℝ) - 2))) :=
  ⟨by norm_num, C7_star_hub_min 10 (by norm_num)⟩

/-- Claim C8, counterexample: the 3-cycle (a vertex-transitive graph)
does not receive equal values: node 0 gets `sqrt 6` while nodes 1 and 2
get `sqrt 2`. -/
theorem C8_counterexample :
    second_order_centrality cycle3 =
      .ok [(0, some (Real.sqrt 6)), (1, some (Real.sqrt 2)),
        (2, some (Real.sqrt 2))] ∧
    Real.sqrt 6 ≠ Real.sqrt 2 := by
  constructor
  · rw [soc_of_core _ _ socCore_cycle3]
    have h6 : npSqrt 6 = some (Real.sqrt 6) := by
      rw [npSqrt_of_nonneg _ (by norm_num)]
      norm_num
    have h2 : npSqrt 2 = some (Real.sqrt 2) := by
      rw [npSqrt_of_nonneg _ (by norm_num)]
      norm_num
    simp only [List.map_cons, List.map_nil, h6, h2]
  · intro hcontra
    have hlt := Real.sqrt_lt_sqrt (by norm_num : (0 : ℝ) ≤ 2)
      (by norm_num : (2 : ℝ) < 6)
    rw [hcontra] at hlt
    exact lt_irrefl _ hlt

/-- Claim C8, amended: in every complete graph on `n ≥ 2` nodes, all
nodes other than node 0 receive the equal value `sqrt((n-1)(n-2))`, while
node 0 receives the strictly larger value `sqrt(n(n-1))`: structural
symmetry does not make all returned values equal, only the nodes not
distinguished from each other relative to index 0. -/
theorem C8_amended (n : ℕ) (h2 : 2 ≤ n) :
    second_order_centrality (completeG n) =
      .ok ((List.finRange (nN (completeG n))).map
        fun c : Fin (nN (completeG n)) =>
        ((c : ℕ), if (c : ℕ) = 0
          then some (Real.sqrt ((n : ℝ) * ((n : ℝ) - 1)))
          else some (Real.sqrt (((n : ℝ) - 1) * ((n : ℝ) - 2))))) ∧
    Real.sqrt (((n : ℝ) - 1) * ((n : ℝ) - 2)) <
      Real.sqrt ((n : ℝ) * ((n : ℝ) - 1)) := by
  have hnQ : (2 : ℚ) ≤ (n : ℚ) := by exact_mod_cast h2
  have hnR : (2 : ℝ) ≤ (n : ℝ) := by exact_mod_cast h2
  constructor
  · rw [soc_of_core _ _ (socCore_complete n h2), List.map_map]
    congr 1
    apply List.map_congr_left
    intro c _
    simp only [Function.comp]
    congr 1
    by_cases hc : (c : ℕ) = 0
    · rw [if_pos hc, if_pos hc, npSqrt_of_nonneg _ (by nlinarith)]
      congr 1
      push_cast
      ring
    · rw [if_neg hc, if_neg hc, npSqrt_of_nonneg _ (by nlinarith)]
      congr 1
      push_cast
      ring
  · apply Real.sqrt_lt_sqrt (by nlinarith)
    nlinarith

/-- Witness for the amended claim C8 at the complete graph on three
nodes. -/
theorem C8_witness :
    2 ≤ 3 ∧
    (second_order_centrality (completeG 3) =
      .ok ((List.finRange (nN (completeG 3))).map
        fun c : Fin (nN (completeG 3)) =>
        ((c : ℕ), if (c : ℕ) = 0
          then some (Real.sqrt (((3 : ℕ) : ℝ) * (((3 : ℕ) : ℝ) - 1)))
          else some (Real.sqrt ((((3 : ℕ) : ℝ) - 1) * (((3 : ℕ) : ℝ) - 2))))) ∧
     Real.sqrt ((((3 : ℕ) : ℝ) - 1) * (((3 : ℕ) : ℝ) - 2)) <
       Real.sqrt (((3 : ℕ) : ℝ) * (((3 : ℕ) : ℝ) - 1))) :=
  ⟨by norm_num, C8_amended 3 (by norm_num)⟩

/-- Claim C9: the per-node loop, run as a state machine whose body reads
the ambient transition matrix from the mutable state, leaves `P` equal to
the freshly built transition matrix of the input graph across all
iterations, and fills `M` and `H` with exactly the per-column values
derived from that original `P` — each `Qⱼ` is a fresh copy, and no
iteration aliases or modifies `P` or the input graph. -/
theorem C9_frame (G : NXGraph) :
    (runLoop G).P = Pmat G ∧
    (runLoop G).M = Mmat G ∧ (runLoop G).H = Hmat G := by
  obtain ⟨hP, hM, hH⟩ :=
    foldl_loop_char G (List.finRange (nN G)) ⟨Pmat G, 0, 0⟩ rfl
  refine ⟨hP, ?_, ?_⟩
  · funext r c
    have := hM r c
    rw [if_pos (List.mem_finRange c)] at this
    exact this
  · funext r c
    have := hH r c
    rw [if_pos (List.mem_finRange c)] at this
    exact this

/-- Claim C10: a connected undirected multigraph (the edge list may
repeat endpoint pairs; their weights are summed into the adjacency
matrix) is accepted: the call returns a result and raises no error. -/
theorem C10_multigraph_ok (G : NXGraph) (hdir : G.directed = false)
    (hn : 0 < nN G) (hc : is_connected G = true)
    (hw : ∀ e ∈ G.edges, 0 < e.2.2) :
    ∃ res, second_order_centrality G = .ok res :=
  ⟨_, soc_of_core _ _ (socCore_valid G ⟨hdir, hn, hc, hw⟩)⟩

/-- Witness for claim C10 at the two-node multigraph with parallel
edges. -/
theorem C10_witness : ∃ res, second_order_centrality multi2 = .ok res :=
  C10_multigraph_ok multi2 rfl (by decide) (by decide) (by decide)
